import Mathlib

/-!
Verification of the dlog commit-log storage engine.

This file gives a shallow embedding of the storage core of the repository:
the Store (length-prefixed record file, src/internal/commitlog/store),
the Index (fixed-width memory-mapped offset to position map,
src/internal/commitlog/index/index.go), the Segment (pairing a store with an
index, src/internal/commitlog/segment) and the Log (ordered segments with an
active tail, src/internal/commitlog/log/log.go).

Go unsigned 64-bit and 32-bit machine integers are embedded as Nat with
explicit reduction modulo 2 ^ 64 and 2 ^ 32 where the code can overflow;
signed conversions are embedded as Int with explicit two-complement
reinterpretation. Byte buffers and files are lists of Nat (one element per
byte). Fallible operations return Option.
-/

/-- Modulus of Go uint32. -/
def U32 : Nat := 2 ^ 32

/-- Modulus of Go uint64. -/
def U64 : Nat := 2 ^ 64

/-- Reduction modulo 2 ^ 64: the result of every Go uint64 operation. -/
def wrap64 (n : Nat) : Nat := n % U64

/-- Go uint64 subtraction a - b with wraparound. -/
def sub64 (a b : Nat) : Nat := (a % U64 + U64 - b % U64) % U64

/-- Reinterpretation of a Go uint64 value as int64 (two-complement). -/
def toInt64 (n : Nat) : Int :=
  if n % U64 < 2 ^ 63 then ((n % U64 : Nat) : Int)
  else ((n % U64 : Nat) : Int) - (U64 : Int)

/-- Go conversion of a signed integer to uint64 (reduce modulo 2 ^ 64). -/
def ofInt64 (i : Int) : Nat := (i % (U64 : Int)).toNat

/-- Go conversion of a uint64 value to int32: truncate to 32 bits, then
reinterpret as signed. This is the `int32(record.Offset)` conversion in
Segment.Append. -/
def toInt32 (n : Nat) : Int :=
  if n % U32 < 2 ^ 31 then ((n % U32 : Nat) : Int)
  else ((n % U32 : Nat) : Int) - (U32 : Int)

/-- Go conversion of a signed integer to uint32 (reduce modulo 2 ^ 32). This
is the `uint32(in)` conversion in Index.Read. -/
def ofIntU32 (i : Int) : Nat := (i % (U32 : Int)).toNat

/-- Big-endian 4-byte encoding of a uint32 value (binary.BigEndian.PutUint32). -/
def putU32BE (n : Nat) : List Nat :=
  [n / 2 ^ 24 % 256, n / 2 ^ 16 % 256, n / 2 ^ 8 % 256, n % 256]

/-- Big-endian 8-byte encoding of a uint64 value (binary.BigEndian.PutUint64). -/
def putU64BE (n : Nat) : List Nat :=
  [n / 2 ^ 56 % 256, n / 2 ^ 48 % 256, n / 2 ^ 40 % 256, n / 2 ^ 32 % 256,
   n / 2 ^ 24 % 256, n / 2 ^ 16 % 256, n / 2 ^ 8 % 256, n % 256]

/-- Big-endian decoding of the first 4 bytes (binary.BigEndian.Uint32). -/
def getU32BE (l : List Nat) : Nat :=
  l.getD 0 0 * 2 ^ 24 + l.getD 1 0 * 2 ^ 16 + l.getD 2 0 * 2 ^ 8 + l.getD 3 0

/-- Big-endian decoding of the first 8 bytes (binary.BigEndian.Uint64). -/
def getU64BE (l : List Nat) : Nat :=
  l.getD 0 0 * 2 ^ 56 + l.getD 1 0 * 2 ^ 48 + l.getD 2 0 * 2 ^ 40 +
    l.getD 3 0 * 2 ^ 32 + l.getD 4 0 * 2 ^ 24 + l.getD 5 0 * 2 ^ 16 +
    l.getD 6 0 * 2 ^ 8 + l.getD 7 0

/-- Reading the slice buf[pos : pos+len] of a byte buffer. -/
def extract (l : List Nat) (pos len : Nat) : List Nat := (l.drop pos).take len

/-- Overwriting the region buf[pos : pos+bs.length] of a byte buffer, as a
Go copy into a slice of a memory-mapped file. -/
def writeAt (l : List Nat) (pos : Nat) (bs : List Nat) : List Nat :=
  l.take pos ++ bs ++ l.drop (pos + bs.length)

/-- Width in bytes of the length header of a store record (`lenWidth`). -/
def lenWidth : Nat := 8

/-- A Store: the byte contents visible to reads (the write buffer is always
flushed before a read, so buffered and flushed bytes are not distinguished)
plus the running uint64 `size` field. -/
structure Store where
  data : List Nat
  size : Nat
deriving Repr, DecidableEq

/-- Embeds `store.New`: `size` is initialized from the length of the backing
file. -/
def Store.new (file : List Nat) : Store := ⟨file, wrap64 file.length⟩

/-- Embeds `Store.Append`: record the current size as the position, write the
8-byte big-endian length of the payload and then the payload, and grow `size`
by `lenWidth + len(p)`. Returns (bytes written, position, new store). -/
def Store.append (s : Store) (p : List Nat) : Nat × Nat × Store :=
  let pos := s.size
  let length := wrap64 (p.length + lenWidth)
  (length, pos, ⟨s.data ++ putU64BE p.length ++ p, wrap64 (s.size + length)⟩)

/-- Embeds `Store.Read`: after a flush, read the 8-byte length at `pos`, then
that many payload bytes at `pos + lenWidth`. A position past the end of the
file surfaces the OS short-read error, embedded as `none`; so does a position
that is negative once converted to int64 for ReadAt. -/
def Store.read (s : Store) (pos : Nat) : Option (List Nat) :=
  if pos < 2 ^ 63 ∧ pos + lenWidth ≤ s.data.length then
    let len := getU64BE (extract s.data pos lenWidth)
    if pos + lenWidth + len ≤ s.data.length then
      some (extract s.data (pos + lenWidth) len)
    else none
  else none

/-- Modelled from the spec: the body of `Store.Size` is not among the source
files (only its caller `Segment.IsFull` is). Per section 4.1 the store
exposes `Size()` and per section 3 the `size` field tracks total bytes, so
`Size()` returns the `size` field. -/
def Store.Size (s : Store) : Nat := s.size

/-- Embeds `Store.Close`: the buffer is flushed, so the on-disk file holds
exactly the data. -/
def Store.close (s : Store) : List Nat := s.data

/-- Byte layout of one store record: the length header followed by the
payload. -/
def storeRecBytes (p : List Nat) : List Nat := putU64BE p.length ++ p

/-- Byte layout of a store holding the given payloads in order. -/
def storeBytes (ps : List (List Nat)) : List Nat := (ps.map storeRecBytes).flatten

/-- Total bytes consumed by the given payloads: the sum of lenWidth + len(p). -/
def storeLen (ps : List (List Nat)) : Nat :=
  (ps.map (fun p => lenWidth + p.length)).sum

/-- Canonical store state after appending the given payloads to a fresh
store. -/
def storeOf (ps : List (List Nat)) : Store := ⟨storeBytes ps, wrap64 (storeLen ps)⟩

/-- Runs a sequence of appends, collecting the returned (length, position)
pairs (Store.Append cannot fail in the embedding: short writes are OS-level
faults). -/
def Store.appendRets (s : Store) : List (List Nat) → List (Nat × Nat) × Store
  | [] => ([], s)
  | p :: ps =>
    let r := s.append p
    let rest := Store.appendRets r.2.2 ps
    ((r.1, r.2.1) :: rest.1, rest.2)

/-- Expected (length, position) returns for a run of appends starting at byte
position `base`. -/
def expectedRets (base : Nat) : List (List Nat) → List (Nat × Nat)
  | [] => []
  | p :: ps =>
    (wrap64 (p.length + lenWidth), wrap64 base) ::
      expectedRets (base + (lenWidth + p.length)) ps

/-- Width of the relative-offset field of an index entry (`offsetWidth`). -/
def offsetWidth : Nat := 4

/-- Width of the position field of an index entry (`posWidth`). -/
def posWidth : Nat := 8

/-- Total width of an index entry (`recordWidth = posWidth + offsetWidth`). -/
def recordWidth : Nat := posWidth + offsetWidth

/-- An Index: the memory-mapped byte region and the shadow uint64 `size`
counting used bytes. -/
structure Index where
  buf : List Nat
  size : Nat
deriving Repr, DecidableEq

/-- Embeds `index.New`: maxBytes == 0 fails with ErrEmptyFile; otherwise stat
the file (capturing the pre-truncation size), truncate the file to maxBytes
(growing with zero bytes, or shrinking), and mmap maxBytes of it. The int64
and int conversions of maxBytes in Truncate and Mmap fail for
maxBytes ≥ 2 ^ 63. -/
def Index.new (file : List Nat) (maxBytes : Nat) : Option Index :=
  if maxBytes = 0 then none
  else if maxBytes < 2 ^ 63 then
    some ⟨file.take maxBytes ++ List.replicate (maxBytes - file.length) 0,
      wrap64 file.length⟩
  else none

/-- Embeds `Index.Read`: size == 0 is EOF; `in == -1` selects the last entry
via `off = uint32(size/recordWidth - 1)` (uint64 subtraction, then uint32
truncation); otherwise `off = uint32(in)`. The entry at byte position
`off * recordWidth` is decoded big-endian if it lies inside the used
region. -/
def Index.read (i : Index) (inp : Int) : Option (Nat × Nat) :=
  if i.size = 0 then none
  else
    let off : Nat :=
      if inp = -1 then sub64 (i.size / recordWidth) 1 % U32 else ofIntU32 inp
    let pos := off * recordWidth
    if i.size < pos + recordWidth then none
    else
      some (getU32BE (extract i.buf pos offsetWidth),
        getU64BE (extract i.buf (pos + offsetWidth) posWidth))

/-- Embeds `Index.Write`: end-of-space (io.EOF) when the entry would not fit
in the mapping; otherwise write the 4-byte big-endian offset at `size`, the
8-byte big-endian position at `size + offsetWidth`, and advance `size` by
`recordWidth`. -/
def Index.write (i : Index) (off pos : Nat) : Option Index :=
  if i.buf.length < i.size + recordWidth then none
  else
    some ⟨writeAt (writeAt i.buf i.size (putU32BE off)) (i.size + offsetWidth)
        (putU64BE pos),
      wrap64 (i.size + recordWidth)⟩

/-- Embeds `Index.Close`: msync the map, fsync, truncate the file down to
`size`, munmap, close; the file afterwards holds the live region of the
map. -/
def Index.close (i : Index) : List Nat := i.buf.take i.size

/-- Byte layout of one index entry. -/
def entryBytes (e : Nat × Nat) : List Nat := putU32BE e.1 ++ putU64BE e.2

/-- Byte layout of a packed sequence of index entries. -/
def entriesBytes (es : List (Nat × Nat)) : List Nat := (es.map entryBytes).flatten

/-- Canonical index state over a mapping of maxBytes bytes holding the given
entries. -/
def indexOf (m : Nat) (es : List (Nat × Nat)) : Index :=
  ⟨entriesBytes es ++ List.replicate (m - recordWidth * es.length) 0,
    recordWidth * es.length⟩

/-- Runs a sequence of Index.Write calls, failing if any fails. -/
def Index.writeAll (i : Index) : List (Nat × Nat) → Option Index
  | [] => some i
  | e :: es =>
    match i.write e.1 e.2 with
    | none => none
    | some i2 => Index.writeAll i2 es

/-- Embeds the Record of src/internal/commitlog/record: opaque value bytes
plus the assigned uint64 offset. -/
structure Record where
  value : List Nat
  offset : Nat
deriving Repr, DecidableEq

/-- Modelled from the spec: the Avro record codec (BinaryFromNative). The
schema json is missing from the sources; per section 6 the codec is a
self-describing record-of-two-fields codec whose round trip preserves the
value bytes exactly and the offset as an integer. The embedding fixes a
concrete such encoding: the offset integer in 8 bytes two-complement
big-endian, then the 8-byte value length, then the value bytes. -/
def codecEncode (off : Int) (value : List Nat) : List Nat :=
  putU64BE (ofInt64 off) ++ (putU64BE value.length ++ value)

/-- Modelled from the spec: the decoding half of the record codec
(NativeFromBinary), returning the offset as an int64 and the value bytes,
failing on malformed input. -/
def codecDecode (data : List Nat) : Option (Int × List Nat) :=
  if data.length = 16 + getU64BE (extract data lenWidth lenWidth) then
    some (toInt64 (getU64BE (extract data 0 lenWidth)),
      extract data 16 (data.length - 16))
  else none

/-- Embeds segment.Config: InitialOffset, MaxStoreBytes, MaxIndexBytes. The
log Config wraps exactly one such segment Config. -/
structure Config where
  initialOffset : Nat
  maxStoreBytes : Nat
  maxIndexBytes : Nat
deriving Repr, DecidableEq

/-- Embeds the Segment: a store, an index, the config, and the uint64
BaseOffset and NextOffset fields. -/
structure Segment where
  store : Store
  index : Index
  config : Config
  baseOffset : Nat
  nextOffset : Nat
deriving Repr, DecidableEq

/-- Embeds `segment.New` over the contents of the two backing files (opened
with O_CREATE, hence empty when absent): bind the store and index, then
recover NextOffset as baseOffset + lastRelativeOffset + 1 from the last
index entry, or baseOffset when the index is empty. -/
def Segment.new (storeFile indexFile : List Nat) (baseOffset : Nat) (c : Config) :
    Option Segment :=
  match Index.new indexFile c.maxIndexBytes with
  | none => none
  | some ix =>
    match ix.read (-1) with
    | none => some ⟨Store.new storeFile, ix, c, baseOffset, baseOffset⟩
    | some e => some ⟨Store.new storeFile, ix, c, baseOffset,
        wrap64 (baseOffset + e.1 + 1)⟩

/-- Embeds `Segment.Append`: stamp the record with NextOffset, encode it
(the offset is passed to the codec as int32), append the encoding to the
store, then write (uint32 relative offset, position) to the index; increment
NextOffset and return its pre-increment value. On failure the counter is not
advanced, though the store has already been appended to. In the embedding
the codec is total and the store cannot fail, so the failing step is the
index write (end-of-space). -/
def Segment.append (s : Segment) (r : Record) : Option Nat × Segment :=
  let cur := s.nextOffset
  let data := codecEncode (toInt32 cur) r.value
  let a := s.store.append data
  let off := sub64 cur s.baseOffset % U32
  match s.index.write off a.2.1 with
  | none => (none, { s with store := a.2.2 })
  | some ix =>
    (some cur, { s with store := a.2.2, index := ix, nextOffset := wrap64 (cur + 1) })

/-- Embeds `Segment.Read`: look up the position of the relative offset
(uint64 subtraction reinterpreted as int64), read the store bytes at that
position, decode, and rebuild the record (the decoded int64 offset is
converted to uint64). -/
def Segment.read (s : Segment) (off : Nat) : Option Record :=
  match s.index.read (toInt64 (sub64 off s.baseOffset)) with
  | none => none
  | some e =>
    match s.store.read e.2 with
    | none => none
    | some data =>
      match codecDecode data with
      | none => none
      | some d => some ⟨d.2, ofInt64 d.1⟩

/-- Embeds `Segment.IsFull`: full when the index or the store reached its
configured capacity. -/
def Segment.isFull (s : Segment) : Bool :=
  s.config.maxIndexBytes ≤ s.index.size || s.config.maxStoreBytes ≤ s.store.Size

/-- Embeds `Segment.Close` and `Segment.Remove` file effects: closing
flushes both components, leaving the store file and the truncated index
file. -/
def Segment.closeFiles (s : Segment) : List Nat × List Nat :=
  (s.store.close, s.index.close)

/-- Encoded store records of a segment at the given base: the j-th record is
stamped with offset base + j, truncated to int32 by the codec boundary. -/
def segRecs (base : Nat) : List (List Nat) → List (List Nat)
  | [] => []
  | v :: vs => codecEncode (toInt32 base) v :: segRecs (base + 1) vs

/-- Total store bytes consumed by a list of values once encoded: each record
costs lenWidth + (16 + len v) bytes. -/
def vlen (vals : List (List Nat)) : Nat := (vals.map (fun v => 24 + v.length)).sum

/-- Index entries of a segment, starting at relative offset j and store
position pos: entry j holds the uint32 residue of j and the uint64 store
position of record j. -/
def segEntriesFrom (j pos : Nat) : List (List Nat) → List (Nat × Nat)
  | [] => []
  | v :: vs => (j % U32, wrap64 pos) :: segEntriesFrom (j + 1) (pos + (24 + v.length)) vs

/-- Canonical segment state: fresh segment at base after successfully
appending the given values. -/
def segmentOf (c : Config) (base : Nat) (vals : List (List Nat)) : Segment :=
  ⟨storeOf (segRecs base vals), indexOf c.maxIndexBytes (segEntriesFrom 0 0 vals),
    c, base, wrap64 (base + vals.length)⟩

/-- Runs a sequence of Segment.Append calls, all succeeding, collecting the
returned offsets. -/
def Segment.appendAll (s : Segment) : List Record → Option (List Nat × Segment)
  | [] => some ([], s)
  | r :: rs =>
    match s.append r with
    | (some off, s2) =>
      match s2.appendAll rs with
      | none => none
      | some p => some (off :: p.1, p.2)
    | (none, _) => none

/-- Embeds defaultMaxIndex (1 << 10). -/
def defaultMaxIndex : Nat := 2 ^ 10

/-- Embeds defaultMaxStore (1 << 10). -/
def defaultMaxStore : Nat := 2 ^ 10

/-- The default substitution performed by log.New. -/
def applyDefaults (c : Config) : Config :=
  ⟨c.initialOffset,
    if c.maxStoreBytes = 0 then defaultMaxStore else c.maxStoreBytes,
    if c.maxIndexBytes = 0 then defaultMaxIndex else c.maxIndexBytes⟩

/-- The pair of files of one segment on disk: {base}.store and {base}.index. -/
structure SegFiles where
  base : Nat
  storeFile : List Nat
  indexFile : List Nat
deriving Repr, DecidableEq

/-- The Log: the ordered segment list, the active segment (in Go a pointer
into the list; it is always the last element), and the defaulted config.
The directory path is irrelevant to the embedding. -/
structure Log where
  segments : List Segment
  active : Segment
  config : Config
deriving Repr, DecidableEq

/-- The comparator given to slices.SortFunc in setup, int(a) - int(b) on
uint64 values: the relation holds when the comparator is nonpositive. -/
def goCmpLe (a b : Nat) : Prop := toInt64 (sub64 a b) ≤ 0

instance goCmpLeDecidable : DecidableRel goCmpLe := fun _ _ =>
  inferInstanceAs (Decidable (_ ≤ _))

/-- Embeds the slices.SortFunc call of setup as insertion sort; on the
reachable inputs the comparator is a total order, where any correct sort
coincides with insertion sort. -/
def goSort (l : List Nat) : List Nat := l.insertionSort goCmpLe

/-- The step-by-two loop of setup over the sorted offsets (the index and
store file of a segment share one base offset). -/
def everyOther : List Nat → List Nat
  | [] => []
  | [a] => [a]
  | a :: _ :: rest => a :: everyOther rest

/-- File lookup by base offset; a file missing from the directory is created
empty by os.OpenFile with O_CREATE. -/
def findFiles (disk : List SegFiles) (b : Nat) : List Nat × List Nat :=
  match disk.find? (fun f => f.base == b) with
  | none => ([], [])
  | some f => (f.storeFile, f.indexFile)

/-- Opens one segment per base offset, as the setup loop does. -/
def openSegments (disk : List SegFiles) (c : Config) : List Nat → Option (List Segment)
  | [] => some []
  | b :: bs =>
    match Segment.new (findFiles disk b).1 (findFiles disk b).2 b c with
    | none => none
    | some s =>
      match openSegments disk c bs with
      | none => none
      | some rest => some (s :: rest)

/-- Embeds `setup`: list the directory (each segment contributes its two
files, hence its base offset twice); on an empty directory create one fresh
segment at InitialOffset; otherwise sort the base offsets, open a segment
for every other offset, and make the last one active. -/
def setup (disk : List SegFiles) (c : Config) : Option Log :=
  let baseOffsets := (disk.map (fun f => [f.base, f.base])).flatten
  if baseOffsets.isEmpty then
    match Segment.new [] [] c.initialOffset c with
    | none => none
    | some seg => some ⟨[seg], seg, c⟩
  else
    match openSegments disk c (everyOther (goSort baseOffsets)) with
    | none => none
    | some segs =>
      match segs.getLast? with
      | none => none
      | some active => some ⟨segs, active, c⟩

/-- Embeds `log.New`: substitute the defaults, then setup. -/
def Log.new (disk : List SegFiles) (c : Config) : Option Log :=
  setup disk (applyDefaults c)

/-- Embeds `Log.Append`: append to the active segment (the last list
element, sharing its state); if the segment is then full, create a new
segment at off + 1, promote it, and return off + 1. -/
def Log.append (l : Log) (r : Record) : Option Nat × Log :=
  match l.active.append r with
  | (none, seg) => (none, ⟨l.segments.dropLast ++ [seg], seg, l.config⟩)
  | (some off, seg) =>
    if seg.isFull then
      match Segment.new [] [] (wrap64 (off + 1)) l.config with
      | none => (none, ⟨l.segments.dropLast ++ [seg], seg, l.config⟩)
      | some s =>
        (some (wrap64 (off + 1)), ⟨(l.segments.dropLast ++ [seg]) ++ [s], s, l.config⟩)
    else (some off, ⟨l.segments.dropLast ++ [seg], seg, l.config⟩)

/-- Embeds `Log.Read`: linear search for the segment whose
[BaseOffset, NextOffset) range contains the target; otherwise
ErrOutOfBounds, embedded as none. -/
def Log.read (l : Log) (off : Nat) : Option Record :=
  match l.segments.find? (fun s => s.baseOffset ≤ off && off < s.nextOffset) with
  | none => none
  | some s => s.read off

/-- A placeholder for the empty-segment-list case, where the Go code would
panic on slice index -1; no constructed log has an empty segment list. -/
def dummySegment : Segment := ⟨⟨[], 0⟩, ⟨[], 0⟩, ⟨0, 0, 0⟩, 0, 0⟩

/-- Embeds `Log.LowestOffset`: the BaseOffset of the first segment. -/
def Log.lowestOffset (l : Log) : Nat := (l.segments.headD dummySegment).baseOffset

/-- Embeds `Log.HighestOffset`: NextOffset of the last segment minus one,
or 0 when that NextOffset is 0. -/
def Log.highestOffset (l : Log) : Nat :=
  if 0 < (l.segments.getLastD dummySegment).nextOffset then
    (l.segments.getLastD dummySegment).nextOffset - 1
  else 0

/-- Embeds `Log.Compact`: drop (via Segment.Remove) every segment whose
NextOffset is strictly below the threshold; keep the rest in order. -/
def Log.compact (l : Log) (lowest : Nat) : Log :=
  ⟨l.segments.filter (fun s => !(decide (s.nextOffset < lowest))), l.active, l.config⟩

/-- Embeds the on-disk result of `Log.Close`: each segment flushes its
store and truncates its index, leaving one file pair per segment. -/
def Log.close (l : Log) : List SegFiles :=
  l.segments.map (fun s => ⟨s.baseOffset, s.store.close, s.index.close⟩)

/-- Runs a sequence of Log.Append calls, all succeeding, collecting the
returned offsets. -/
def Log.appendAll (l : Log) : List Record → Option (List Nat × Log)
  | [] => some ([], l)
  | r :: rs =>
    match l.append r with
    | (some off, l2) =>
      match l2.appendAll rs with
      | none => none
      | some p => some (off :: p.1, p.2)
    | (none, _) => none

/-- Reachability: logs built over a fresh directory by successful appends,
together with the records appended and the offsets returned. -/
inductive LReach (c : Config) : Log → List Record → List Nat → Prop
  | init (l : Log) : Log.new [] c = some l → LReach c l [] []
  | step (l : Log) (rs : List Record) (rets : List Nat) (r : Record) (off : Nat)
      (l2 : Log) : LReach c l rs rets → l.append r = (some off, l2) →
      LReach c l2 (rs ++ [r]) (rets ++ [off])

/-- The segments determined by a list of (base, values) parts. -/
def partsSegs (c : Config) (ps : List (Nat × List (List Nat))) : List Segment :=
  ps.map (fun p => segmentOf c p.1 p.2)

/-- Contiguity of parts: each part starts where the previous one ended. -/
def contigFrom (b : Nat) : List (Nat × List (List Nat)) → Prop
  | [] => True
  | p :: rest => p.1 = b ∧ contigFrom (b + p.2.length) rest

/-- Total number of values across the parts. -/
def partsCount (ps : List (Nat × List (List Nat))) : Nat :=
  (ps.map (fun p => p.2.length)).sum

/-- All values across the parts, in order. -/
def partsVals (ps : List (Nat × List (List Nat))) : List (List Nat) :=
  (ps.map (fun p => p.2)).flatten

/-- Structural invariant of every reachable log: its segments are the
canonical segments of a contiguous list of parts whose values are exactly
the appended record values; the active segment is the last; every part fits
its index; every part but the last is nonempty. -/
def LogShape (c : Config) (l : Log) (rs : List Record) : Prop :=
  ∃ ps cur,
    l.config = applyDefaults c ∧
    l.segments = partsSegs (applyDefaults c) (ps ++ [cur]) ∧
    l.active = segmentOf (applyDefaults c) cur.1 cur.2 ∧
    contigFrom c.initialOffset (ps ++ [cur]) ∧
    partsVals (ps ++ [cur]) = rs.map Record.value ∧
    (∀ p ∈ ps ++ [cur], recordWidth * p.2.length ≤ (applyDefaults c).maxIndexBytes) ∧
    (∀ p ∈ ps, p.2 ≠ []) ∧
    (applyDefaults c).maxIndexBytes ≠ 0 ∧ (applyDefaults c).maxIndexBytes < 2 ^ 63

/-- Specification of the returned offsets: the k-th successful append
returns the assigned offset initialOffset + k, or one more when it
triggered a rollover. -/
def RetsOK (init n : Nat) (rets : List Nat) : Prop :=
  rets.length = n ∧
  ∀ k, k < n → rets.getD k 0 = init + k ∨ rets.getD k 0 = init + k + 1

def partFiles (p : Nat × List (List Nat)) : SegFiles :=
  ⟨p.1, storeBytes (segRecs p.1 p.2), entriesBytes (segEntriesFrom 0 0 p.2)⟩

theorem wrap64_lt (n : Nat) : wrap64 n < U64 := Nat.mod_lt _ (by decide)

theorem wrap64_eq_of_lt {n : Nat} (h : n < U64) : wrap64 n = n := Nat.mod_eq_of_lt h

theorem wrap64_wrap64 (n : Nat) : wrap64 (wrap64 n) = wrap64 n :=
  Nat.mod_mod_of_dvd n dvd_rfl

theorem length_putU32BE (n : Nat) : (putU32BE n).length = 4 := rfl

theorem length_putU64BE (n : Nat) : (putU64BE n).length = 8 := rfl

theorem getU32BE_putU32BE (n : Nat) : getU32BE (putU32BE n) = n % U32 := by
  simp [getU32BE, putU32BE, List.getD, U32]
  omega

theorem getU64BE_putU64BE (n : Nat) : getU64BE (putU64BE n) = n % U64 := by
  simp [getU64BE, putU64BE, List.getD, U64]
  omega

theorem putU32BE_mod (n : Nat) : putU32BE (n % U32) = putU32BE n := by
  simp only [putU32BE, U32, List.cons.injEq, and_true]
  refine ⟨?_, ?_, ?_, ?_⟩ <;> omega

theorem putU64BE_mod (n : Nat) : putU64BE (n % U64) = putU64BE n := by
  simp only [putU64BE, U64, List.cons.injEq, and_true]
  refine ⟨?_, ?_, ?_, ?_, ?_, ?_, ?_, ?_⟩ <;> omega

theorem extract_append_of_le {l t : List Nat} {pos len : Nat}
    (h : pos + len ≤ l.length) : extract (l ++ t) pos len = extract l pos len := by
  unfold extract
  rw [List.drop_append_of_le_length (by omega),
    List.take_append_of_le_length (by simp [List.length_drop]; omega)]

/-- Extraction of exactly the leading block of a concatenation. -/
theorem extract_append_self {l t : List Nat} : extract (l ++ t) 0 l.length = l := by
  unfold extract
  rw [List.drop_zero, List.take_append_of_le_length (le_refl _), List.take_length]

/-- Extraction past a leading block of a concatenation. -/
theorem extract_append_drop {l t : List Nat} {pos len : Nat} :
    extract (l ++ t) (l.length + pos) len = extract t pos len := by
  unfold extract
  rw [List.drop_append_eq_append_drop, List.drop_eq_nil_of_le (by omega)]
  simp only [List.nil_append]
  congr 2
  omega

/-- Extraction right after a leading block of a concatenation. -/
theorem extract_append_start {l t : List Nat} {len : Nat} :
    extract (l ++ t) l.length len = extract t 0 len := by
  have := @extract_append_drop l t 0 len
  simpa using this

theorem extract_zero_len {t : List Nat} {len : Nat} (h : len = t.length) :
    extract t 0 len = t := by
  subst h
  unfold extract
  simp

theorem length_writeAt {l bs : List Nat} {pos : Nat} (h : pos + bs.length ≤ l.length) :
    (writeAt l pos bs).length = l.length := by
  simp only [writeAt, List.length_append, List.length_take, List.length_drop]
  omega

/-! ## Store

Embedded from the source of package store (the file concatenated after
segment_test.go in the repository snapshot). -/

theorem length_storeRecBytes (p : List Nat) :
    (storeRecBytes p).length = lenWidth + p.length := by
  simp [storeRecBytes, lenWidth, length_putU64BE]

theorem storeBytes_concat (ps qs : List (List Nat)) :
    storeBytes (ps ++ qs) = storeBytes ps ++ storeBytes qs := by
  simp [storeBytes]

theorem storeBytes_cons (p : List Nat) (ps : List (List Nat)) :
    storeBytes (p :: ps) = storeRecBytes p ++ storeBytes ps := by
  simp [storeBytes]

theorem length_storeBytes (ps : List (List Nat)) :
    (storeBytes ps).length = storeLen ps := by
  induction ps with
  | nil => rfl
  | cons p ps ih =>
    rw [storeBytes_cons, List.length_append, ih, length_storeRecBytes]
    simp [storeLen]

theorem storeLen_append (ps qs : List (List Nat)) :
    storeLen (ps ++ qs) = storeLen ps + storeLen qs := by
  simp [storeLen]

theorem storeLen_take_le (ps : List (List Nat)) (j : Nat) :
    storeLen (ps.take j) ≤ storeLen ps := by
  conv_rhs => rw [← List.take_append_drop j ps]
  rw [storeLen_append]
  omega

/-- One append on the canonical store. -/
theorem storeOf_append (ps : List (List Nat)) (p : List Nat) :
    (storeOf ps).append p =
      (wrap64 (p.length + lenWidth), wrap64 (storeLen ps), storeOf (ps ++ [p])) := by
  have hdata : storeBytes ps ++ putU64BE p.length ++ p = storeBytes (ps ++ [p]) := by
    rw [storeBytes_concat, storeBytes_cons]
    simp [storeRecBytes, storeBytes, List.append_assoc]
  have hsize : wrap64 (wrap64 (storeLen ps) + wrap64 (p.length + lenWidth)) =
      wrap64 (storeLen (ps ++ [p])) := by
    rw [storeLen_append]
    simp only [storeLen, List.map_cons, List.sum_cons, List.map_nil, List.sum_nil,
      wrap64, U64]
    omega
  simp only [Store.append, storeOf]
  rw [hdata, hsize]

/-- Decomposition of the canonical store bytes around the j-th record. -/
theorem storeBytes_decomp {ps : List (List Nat)} {j : Nat} (hj : j < ps.length) :
    storeBytes ps =
      storeBytes (ps.take j) ++ (storeRecBytes (ps.getD j []) ++ storeBytes (ps.drop (j + 1))) := by
  conv_lhs => rw [← List.take_append_drop j ps]
  rw [storeBytes_concat, List.drop_eq_getElem_cons hj, storeBytes_cons,
    List.getD_eq_getElem ps [] hj]

/-- Reading the j-th record of a canonical store at its position. -/
theorem storeOf_read {ps : List (List Nat)} {j : Nat} (hj : j < ps.length)
    (hlen : storeLen ps < 2 ^ 63) :
    (storeOf ps).read (storeLen (ps.take j)) = some (ps.getD j []) := by
  have hdec := storeBytes_decomp hj
  set p := ps.getD j [] with hp
  set A := storeBytes (ps.take j) with hA
  have hAlen : A.length = storeLen (ps.take j) := length_storeBytes _
  have htotal : (storeBytes ps).length = storeLen ps := length_storeBytes _
  have hsplit : storeLen ps = storeLen (ps.take j) + ((lenWidth + p.length) +
      storeLen (ps.drop (j + 1))) := by
    rw [← htotal, hdec]
    simp [hAlen, length_storeRecBytes, length_storeBytes]
  have hhead : extract (storeBytes ps) (storeLen (ps.take j)) lenWidth =
      putU64BE p.length := by
    rw [hdec, ← hAlen, extract_append_start, storeRecBytes, List.append_assoc]
    rw [show lenWidth = (putU64BE p.length).length from (length_putU64BE _).symm]
    exact extract_append_self
  have hbody : extract (storeBytes ps) (storeLen (ps.take j) + lenWidth) p.length = p := by
    have h1 : storeBytes ps = (A ++ putU64BE p.length) ++ (p ++ storeBytes (ps.drop (j + 1))) := by
      rw [hdec, storeRecBytes]
      simp [List.append_assoc]
    have h2 : (A ++ putU64BE p.length).length = storeLen (ps.take j) + lenWidth := by
      simp [hAlen, length_putU64BE, lenWidth]
    rw [h1, ← h2, extract_append_start]
    rw [show p.length = (p : List Nat).length from rfl]
    exact extract_append_self
  unfold Store.read
  simp only [storeOf]
  rw [if_pos]
  · rw [hhead, getU64BE_putU64BE, Nat.mod_eq_of_lt (by
      have := hsplit
      simp only [U64]
      omega)]
    rw [if_pos]
    · rw [hbody]
    · rw [htotal]
      omega
  · constructor
    · have := storeLen_take_le ps j
      omega
    · rw [htotal]
      omega

theorem appendRets_storeOf (ps : List (List Nat)) :
    ∀ acc : List (List Nat),
      (storeOf acc).appendRets ps = (expectedRets (storeLen acc) ps, storeOf (acc ++ ps)) := by
  induction ps with
  | nil => intro acc; simp [Store.appendRets, expectedRets]
  | cons p ps ih =>
    intro acc
    show ((((storeOf acc).append p).1, ((storeOf acc).append p).2.1) ::
        (Store.appendRets ((storeOf acc).append p).2.2 ps).1,
        (Store.appendRets ((storeOf acc).append p).2.2 ps).2) = _
    rw [storeOf_append]
    show ((wrap64 (p.length + lenWidth), wrap64 (storeLen acc)) ::
        (Store.appendRets (storeOf (acc ++ [p])) ps).1,
        (Store.appendRets (storeOf (acc ++ [p])) ps).2) = _
    rw [ih (acc ++ [p])]
    have h1 : storeLen (acc ++ [p]) = storeLen acc + (lenWidth + p.length) := by
      rw [storeLen_append]; simp [storeLen]
    have h2 : acc ++ [p] ++ ps = acc ++ p :: ps := by simp
    rw [h1, h2]
    rfl

theorem expectedRets_getD (ps : List (List Nat)) :
    ∀ (base j : Nat), j < ps.length →
      (expectedRets base ps).getD j (0, 0) =
        (wrap64 ((ps.getD j []).length + lenWidth), wrap64 (base + storeLen (ps.take j))) := by
  induction ps with
  | nil => intro base j h; simp at h
  | cons p ps ih =>
    intro base j h
    cases j with
    | zero => simp [expectedRets, storeLen]
    | succ j =>
      have hj : j < ps.length := by simpa using h
      simp only [expectedRets, List.getD_cons_succ, List.take_succ_cons]
      rw [ih _ j hj]
      have : base + (lenWidth + p.length) + storeLen (ps.take j) =
          base + storeLen (p :: ps.take j) := by
        simp [storeLen]; omega
      rw [this]

theorem store_new_nil : Store.new [] = storeOf [] := rfl

/-- C7: positions returned by Store.Append are the running sums of
lenWidth + payload length over all prior appends, and the store size after
each append is that sum including the appended payload, i.e. the position at
which the next append will start. -/
theorem C7_store_position_law (ps : List (List Nat)) (h : storeLen ps < U64) :
    (∀ j, j < ps.length →
      (((Store.new []).appendRets ps).1.getD j (0, 0)).2 = storeLen (ps.take j) ∧
      ((Store.new []).appendRets (ps.take (j + 1))).2.size = storeLen (ps.take (j + 1))) ∧
    ((Store.new []).appendRets ps).2.size = storeLen ps := by
  rw [store_new_nil]
  constructor
  · intro j hj
    constructor
    · rw [appendRets_storeOf ps []]
      simp only []
      rw [expectedRets_getD ps _ j hj]
      show wrap64 (storeLen [] + storeLen (ps.take j)) = _
      have h0 : storeLen ([] : List (List Nat)) = 0 := rfl
      rw [h0, Nat.zero_add, wrap64_eq_of_lt]
      have := storeLen_take_le ps j
      omega
    · rw [appendRets_storeOf (ps.take (j + 1)) []]
      show (storeOf ([] ++ ps.take (j + 1))).size = _
      simp only [List.nil_append, storeOf]
      rw [wrap64_eq_of_lt]
      have := storeLen_take_le ps (j + 1)
      omega
  · rw [appendRets_storeOf ps []]
    show (storeOf ([] ++ ps)).size = _
    simp only [List.nil_append, storeOf]
    exact wrap64_eq_of_lt h

/-- Witness for C7 at a concrete input: three payloads of sizes 1, 2, 0. -/
theorem C7_store_position_law_witness :
    storeLen [[97], [98, 99], []] < U64 ∧
    (((Store.new []).appendRets [[97], [98, 99], []]).1.getD 2 (0, 0)).2 =
      storeLen [[97], [98, 99]] ∧
    ((Store.new []).appendRets [[97], [98, 99], []]).2.size = storeLen [[97], [98, 99], []] :=
  ⟨by decide,
    by
      have h := (C7_store_position_law [[97], [98, 99], []] (by decide)).1 2 (by decide)
      have h2 := h.1
      simpa using h2,
    (C7_store_position_law [[97], [98, 99], []] (by decide)).2⟩

/-! ## Index (src/internal/commitlog/index/index.go) -/

theorem length_entryBytes (e : Nat × Nat) : (entryBytes e).length = recordWidth := rfl

theorem entriesBytes_concat (es fs : List (Nat × Nat)) :
    entriesBytes (es ++ fs) = entriesBytes es ++ entriesBytes fs := by
  simp [entriesBytes]

theorem entriesBytes_cons (e : Nat × Nat) (es : List (Nat × Nat)) :
    entriesBytes (e :: es) = entryBytes e ++ entriesBytes es := by
  simp [entriesBytes]

theorem length_entriesBytes (es : List (Nat × Nat)) :
    (entriesBytes es).length = recordWidth * es.length := by
  induction es with
  | nil => rfl
  | cons e es ih =>
    rw [entriesBytes_cons, List.length_append, ih, length_entryBytes,
      List.length_cons]
    ring

theorem indexOf_buf_length (m : Nat) (es : List (Nat × Nat)) :
    (indexOf m es).buf.length = recordWidth * es.length + (m - recordWidth * es.length) := by
  simp [indexOf, length_entriesBytes]

theorem recordWidth_eq : recordWidth = 12 := rfl

theorem offsetWidth_eq : offsetWidth = 4 := rfl

theorem posWidth_eq : posWidth = 8 := rfl

theorem entriesBytes_nil : entriesBytes [] = [] := rfl

/-- Unfolding equation for writeAt, used to rewrite a single occurrence. -/
theorem writeAt_eq (l : List Nat) (pos : Nat) (bs : List Nat) :
    writeAt l pos bs = l.take pos ++ bs ++ l.drop (pos + bs.length) := rfl

/-- Result of the two mmap writes of Index.Write: the packed entry lands at
byte position sz. -/
theorem writeAt_entry {buf : List Nat} {sz : Nat} (off pos : Nat)
    (h : sz + recordWidth ≤ buf.length) :
    writeAt (writeAt buf sz (putU32BE off)) (sz + offsetWidth) (putU64BE pos) =
      buf.take sz ++ (entryBytes (off, pos) ++ buf.drop (sz + recordWidth)) := by
  simp only [recordWidth_eq, posWidth_eq, offsetWidth_eq] at h ⊢
  have hT : (buf.take sz).length = sz := by
    rw [List.length_take]
    omega
  have h1 : writeAt buf sz (putU32BE off) =
      buf.take sz ++ putU32BE off ++ buf.drop (sz + 4) := by
    rw [writeAt_eq, length_putU32BE]
  have hTP : (buf.take sz ++ putU32BE off).length = sz + 4 := by
    rw [List.length_append, hT, length_putU32BE]
  have htake : (writeAt buf sz (putU32BE off)).take (sz + 4) =
      buf.take sz ++ putU32BE off := by
    rw [h1, ← hTP, List.take_left]
  have hdrop : (writeAt buf sz (putU32BE off)).drop (sz + 4 + 8) =
      buf.drop (sz + 12) := by
    rw [h1, List.drop_append_eq_append_drop, hTP,
      List.drop_eq_nil_of_le (by rw [hTP]; omega), List.nil_append, List.drop_drop]
    congr 1
    omega
  rw [writeAt_eq (writeAt buf sz (putU32BE off)) (sz + 4) (putU64BE pos),
    length_putU64BE, htake, hdrop]
  simp [entryBytes, List.append_assoc]

/-- One successful write on the canonical index. -/
theorem indexOf_write {m : Nat} {es : List (Nat × Nat)} (off pos : Nat)
    (h : recordWidth * (es.length + 1) ≤ m) (hm : m < 2 ^ 63) :
    (indexOf m es).write off pos = some (indexOf m (es ++ [(off, pos)])) := by
  have hE : (entriesBytes es).length = recordWidth * es.length := length_entriesBytes es
  have hlen := indexOf_buf_length m es
  have hsz : (indexOf m es).size = recordWidth * es.length := rfl
  simp only [recordWidth_eq] at h hE hlen hsz
  unfold Index.write
  rw [if_neg (by
    rw [hlen, hsz, recordWidth_eq]
    omega)]
  congr 1
  have hw := @writeAt_entry (indexOf m es).buf (12 * es.length)
    off pos (by
      rw [recordWidth_eq]
      omega)
  simp only [recordWidth_eq, offsetWidth_eq] at hw ⊢
  rw [hsz, hw]
  have htake : (indexOf m es).buf.take (12 * es.length) = entriesBytes es := by
    show (entriesBytes es ++ _).take (12 * es.length) = _
    rw [← hE, List.take_left]
  have hdrop : (indexOf m es).buf.drop (12 * es.length + 12) =
      List.replicate (m - 12 * (es.length + 1)) 0 := by
    show (entriesBytes es ++ _).drop (12 * es.length + 12) = _
    rw [List.drop_append_eq_append_drop, List.drop_eq_nil_of_le (by omega), hE,
      List.nil_append, List.drop_replicate]
    congr 1
    rw [recordWidth_eq]
    omega
  rw [htake, hdrop]
  unfold indexOf
  refine congrArg₂ Index.mk ?_ ?_
  · rw [entriesBytes_concat, entriesBytes_cons, entriesBytes_nil, List.append_nil,
      List.append_assoc]
    congr 2
    rw [List.length_append, List.length_cons, List.length_nil, recordWidth_eq]
  · rw [List.length_append, List.length_cons, List.length_nil, wrap64_eq_of_lt]
    · rw [recordWidth_eq]
      ring
    · simp only [U64]
      omega

/-- Decomposition of packed entries around the j-th entry. -/
theorem entriesBytes_decomp {es : List (Nat × Nat)} {j : Nat} (hj : j < es.length) :
    entriesBytes es = entriesBytes (es.take j) ++
      (entryBytes (es.getD j (0, 0)) ++ entriesBytes (es.drop (j + 1))) := by
  conv_lhs => rw [← List.take_append_drop j es]
  rw [entriesBytes_concat, List.drop_eq_getElem_cons hj, entriesBytes_cons,
    List.getD_eq_getElem es (0, 0) hj]

theorem length_entriesBytes_take {es : List (Nat × Nat)} {j : Nat} (hj : j ≤ es.length) :
    (entriesBytes (es.take j)).length = recordWidth * j := by
  rw [length_entriesBytes, List.length_take]
  congr 1
  omega

/-- The two fields of the j-th entry of a canonical index buffer. -/
theorem indexOf_entry {m : Nat} {es : List (Nat × Nat)} {j : Nat} (hj : j < es.length) :
    extract (indexOf m es).buf (recordWidth * j) offsetWidth =
        putU32BE (es.getD j (0, 0)).1 ∧
      extract (indexOf m es).buf (recordWidth * j + offsetWidth) posWidth =
        putU64BE (es.getD j (0, 0)).2 := by
  have hdec := entriesBytes_decomp hj
  set e := es.getD j (0, 0) with he
  have hA : (entriesBytes (es.take j)).length = recordWidth * j :=
    length_entriesBytes_take (by omega)
  have hbuf : (indexOf m es).buf = entriesBytes (es.take j) ++
      ((putU32BE e.1 ++ putU64BE e.2) ++
        (entriesBytes (es.drop (j + 1)) ++
          List.replicate (m - recordWidth * es.length) 0)) := by
    show entriesBytes es ++ _ = _
    rw [hdec, entryBytes]
    simp [List.append_assoc]
  constructor
  · rw [hbuf, ← hA, extract_append_start, List.append_assoc]
    rw [show offsetWidth = (putU32BE e.1).length from (length_putU32BE _).symm]
    exact extract_append_self
  · have hbuf2 : (indexOf m es).buf = (entriesBytes (es.take j) ++ putU32BE e.1) ++
        (putU64BE e.2 ++
          (entriesBytes (es.drop (j + 1)) ++
            List.replicate (m - recordWidth * es.length) 0)) := by
      rw [hbuf]
      simp [List.append_assoc]
    have hA2 : (entriesBytes (es.take j) ++ putU32BE e.1).length =
        recordWidth * j + offsetWidth := by
      rw [List.length_append, hA, length_putU32BE, offsetWidth_eq]
    rw [hbuf2, ← hA2, extract_append_start]
    rw [show posWidth = (putU64BE e.2).length from (length_putU64BE _).symm]
    exact extract_append_self

/-- Reading the j-th entry of a canonical index by nonnegative argument. -/
theorem indexOf_read_nat {m : Nat} {es : List (Nat × Nat)} {j : Nat}
    (hj : j < es.length) (hj32 : j < U32) :
    (indexOf m es).read (j : Int) =
      some ((es.getD j (0, 0)).1 % U32, (es.getD j (0, 0)).2 % U64) := by
  have hsz : (indexOf m es).size = recordWidth * es.length := rfl
  unfold Index.read
  rw [if_neg (by rw [hsz, recordWidth_eq]; omega)]
  have hneg : ((j : Int) = -1) = False := by
    simp only [eq_iff_iff, iff_false]
    omega
  simp only [hneg, if_false]
  have hoff : ofIntU32 (j : Int) = j := by
    unfold ofIntU32
    simp only [U32] at hj32 ⊢
    omega
  rw [hoff, hsz]
  rw [if_neg (by rw [recordWidth_eq]; omega)]
  have hent := indexOf_entry (m := m) hj
  rw [Nat.mul_comm j recordWidth, hent.1, hent.2, getU32BE_putU32BE, getU64BE_putU64BE]

/-- Reading the last entry of a canonical index with argument -1. -/
theorem indexOf_read_last {m : Nat} {es : List (Nat × Nat)}
    (hne : es.length ≠ 0) (hk : es.length ≤ U32) :
    (indexOf m es).read (-1) =
      some ((es.getD (es.length - 1) (0, 0)).1 % U32,
        (es.getD (es.length - 1) (0, 0)).2 % U64) := by
  have hsz : (indexOf m es).size = recordWidth * es.length := rfl
  unfold Index.read
  rw [if_neg (by rw [hsz, recordWidth_eq]; omega)]
  have hc : ((-1 : Int) = -1) = True := by simp
  simp only [hc, if_true, hsz]
  have hdiv : recordWidth * es.length / recordWidth = es.length :=
    Nat.mul_div_cancel_left _ (by decide)
  have hoff : sub64 (recordWidth * es.length / recordWidth) 1 % U32 = es.length - 1 := by
    rw [hdiv]
    unfold sub64
    simp only [U32, U64] at hk ⊢
    omega
  rw [hoff]
  have hcond : ¬ (recordWidth * es.length < (es.length - 1) * recordWidth + recordWidth) := by
    rw [recordWidth_eq]
    omega
  rw [if_neg hcond]
  have hent := @indexOf_entry m es (es.length - 1) (by omega)
  rw [Nat.mul_comm (es.length - 1) recordWidth, hent.1, hent.2, getU32BE_putU32BE,
    getU64BE_putU64BE]

/-- Closing a canonical index truncates the file to exactly the packed
entries. -/
theorem indexOf_close {m : Nat} {es : List (Nat × Nat)}
    (_ : recordWidth * es.length ≤ m) :
    (indexOf m es).close = entriesBytes es := by
  unfold Index.close indexOf
  simp only []
  rw [← length_entriesBytes, List.take_left]

/-- Reopening a file written by a closed canonical index restores the
canonical index. -/
theorem indexOf_reopen {m : Nat} {es : List (Nat × Nat)}
    (h : recordWidth * es.length ≤ m) (h0 : m ≠ 0) (h63 : m < 2 ^ 63) :
    Index.new (entriesBytes es) m = some (indexOf m es) := by
  unfold Index.new
  rw [if_neg h0, if_pos h63]
  congr 1
  unfold indexOf
  refine congrArg₂ Index.mk ?_ ?_
  · rw [List.take_of_length_le (by rw [length_entriesBytes]; omega), length_entriesBytes]
  · rw [length_entriesBytes, wrap64_eq_of_lt]
    have : recordWidth * es.length ≤ m := h
    simp only [U64]
    omega

/-- Fresh index over an empty file. -/
theorem index_new_nil {m : Nat} (h0 : m ≠ 0) (h63 : m < 2 ^ 63) :
    Index.new [] m = some (indexOf m []) := by
  unfold Index.new indexOf
  rw [if_neg h0, if_pos h63]
  simp [entriesBytes, wrap64]

/-- A successful run of writes from a canonical state reaches the canonical
state of the concatenation, and every written entry fit. -/
theorem writeAll_indexOf {m : Nat} (h63 : m < 2 ^ 63) (es : List (Nat × Nat)) :
    ∀ (acc : List (Nat × Nat)) (iN : Index), recordWidth * acc.length ≤ m →
      (indexOf m acc).writeAll es = some iN →
      iN = indexOf m (acc ++ es) ∧ recordWidth * (acc ++ es).length ≤ m := by
  induction es with
  | nil =>
    intro acc iN hacc hrun
    unfold Index.writeAll at hrun
    simp only [Option.some.injEq] at hrun
    simp [← hrun, hacc]
  | cons e es ih =>
    intro acc iN hacc hrun
    by_cases hfit : recordWidth * (acc.length + 1) ≤ m
    · unfold Index.writeAll at hrun
      rw [indexOf_write e.1 e.2 hfit h63] at hrun
      simp only [] at hrun
      have h2 := ih (acc ++ [(e.1, e.2)]) iN (by
        rw [List.length_append, List.length_cons, List.length_nil]
        exact hfit) hrun
      rcases h2 with ⟨h3, h4⟩
      constructor
      · rw [h3]
        congr 1
        simp
      · simp only [List.length_append, List.length_cons, List.length_nil,
          recordWidth_eq] at h4 ⊢
        omega
    · exfalso
      unfold Index.writeAll at hrun
      have hwr : (indexOf m acc).write e.1 e.2 = none := by
        unfold Index.write
        rw [if_pos]
        have hbl := indexOf_buf_length m acc
        have hsz : (indexOf m acc).size = recordWidth * acc.length := rfl
        rw [hbl, hsz]
        simp only [recordWidth, posWidth, offsetWidth] at hfit ⊢
        omega
      rw [hwr] at hrun
      exact Option.noConfusion hrun

/-- C8: Index.Write fails with end-of-space exactly when size + 12 exceeds
the length of the memory mapping; otherwise it writes the 4-byte big-endian
relOffset at bytes [size, size+4), the 8-byte big-endian position at bytes
[size+4, size+12), and increments size by 12, so that after k successful
writes to a fresh index Size() equals 12 k. -/
theorem C8_index_write (i : Index) (off pos : Nat) (hbuf : i.buf.length < 2 ^ 63) :
    (i.write off pos = none ↔ i.buf.length < i.size + recordWidth) ∧
    (∀ i2, i.write off pos = some i2 →
      i2.size = i.size + recordWidth ∧
      extract i2.buf i.size offsetWidth = putU32BE off ∧
      extract i2.buf (i.size + offsetWidth) posWidth = putU64BE pos) ∧
    (∀ m i0 es iN, Index.new [] m = some i0 → i0.writeAll es = some iN →
      iN.size = recordWidth * es.length) := by
  refine ⟨?_, ?_, ?_⟩
  · constructor
    · intro hnone
      by_contra hcon
      unfold Index.write at hnone
      rw [if_neg hcon] at hnone
      exact Option.noConfusion hnone
    · intro hlt
      unfold Index.write
      rw [if_pos hlt]
  · intro i2 hsucc
    unfold Index.write at hsucc
    by_cases hlt : i.buf.length < i.size + recordWidth
    · rw [if_pos hlt] at hsucc
      exact Option.noConfusion hsucc
    · rw [if_neg hlt] at hsucc
      simp only [Option.some.injEq] at hsucc
      push_neg at hlt
      have hrw : i.size + recordWidth ≤ i.buf.length := hlt
      have hT : (i.buf.take i.size).length = i.size := by
        rw [List.length_take, recordWidth_eq] at *
        omega
      have hw := @writeAt_entry i.buf i.size off pos hrw
      rw [hw] at hsucc
      refine ⟨?_, ?_, ?_⟩
      · rw [← hsucc]
        show wrap64 (i.size + recordWidth) = i.size + recordWidth
        rw [wrap64_eq_of_lt]
        simp only [recordWidth_eq, U64] at *
        omega
      · rw [← hsucc]
        show extract (i.buf.take i.size ++ (entryBytes (off, pos) ++
          i.buf.drop (i.size + recordWidth))) i.size offsetWidth = putU32BE off
        have hshape : i.buf.take i.size ++ (entryBytes (off, pos) ++
            i.buf.drop (i.size + recordWidth)) =
            i.buf.take i.size ++ (putU32BE off ++
              (putU64BE pos ++ i.buf.drop (i.size + recordWidth))) := by
          rw [entryBytes]
          simp [List.append_assoc]
        have hmid := @extract_append_start (i.buf.take i.size)
          (putU32BE off ++ (putU64BE pos ++ i.buf.drop (i.size + recordWidth)))
          offsetWidth
        rw [hT] at hmid
        rw [hshape, hmid, offsetWidth_eq,
          show (4 : Nat) = (putU32BE off).length from (length_putU32BE _).symm]
        exact extract_append_self
      · rw [← hsucc]
        show extract (i.buf.take i.size ++ (entryBytes (off, pos) ++
          i.buf.drop (i.size + recordWidth))) (i.size + offsetWidth) posWidth =
          putU64BE pos
        have hshape : i.buf.take i.size ++ (entryBytes (off, pos) ++
            i.buf.drop (i.size + recordWidth)) =
            (i.buf.take i.size ++ putU32BE off) ++
              (putU64BE pos ++ i.buf.drop (i.size + recordWidth)) := by
          rw [entryBytes]
          simp [List.append_assoc]
        have hmid := @extract_append_start (i.buf.take i.size ++ putU32BE off)
          (putU64BE pos ++ i.buf.drop (i.size + recordWidth))
          posWidth
        rw [List.length_append, hT, length_putU32BE] at hmid
        rw [hshape, show i.size + offsetWidth = i.size + 4 from by
          rw [offsetWidth_eq], hmid, posWidth_eq,
          show (8 : Nat) = (putU64BE pos).length from (length_putU64BE _).symm]
        exact extract_append_self
  · intro m i0 es iN h0 hrun
    have hm : m ≠ 0 ∧ m < 2 ^ 63 := by
      unfold Index.new at h0
      by_cases h1 : m = 0
      · rw [if_pos h1] at h0
        exact Option.noConfusion h0
      · rw [if_neg h1] at h0
        by_cases h2 : m < 2 ^ 63
        · exact ⟨h1, h2⟩
        · rw [if_neg h2] at h0
          exact Option.noConfusion h0
    have h0e : indexOf m [] = i0 := by
      rw [index_new_nil hm.1 hm.2] at h0
      exact Option.some.inj h0
    have hall := writeAll_indexOf hm.2 es [] iN (by simp) (by rw [h0e]; exact hrun)
    rw [hall.1]
    simp [indexOf]

/-- Witness for C8 at a concrete index with a 24-byte mapping. -/
theorem C8_index_write_witness :
    ((⟨List.replicate 24 0, 0⟩ : Index).buf.length < 2 ^ 63) ∧
    ((⟨List.replicate 24 0, 0⟩ : Index).write 5 7 = none ↔
      (⟨List.replicate 24 0, 0⟩ : Index).buf.length <
        (⟨List.replicate 24 0, 0⟩ : Index).size + recordWidth) :=
  ⟨by decide, (C8_index_write ⟨List.replicate 24 0, 0⟩ 5 7 (by decide)).1⟩

/-- C6: an Index closed holding k ≥ 1 live entries, reconstructed over the
same file with the same maxBytes, yields an Index whose Read(j) returns the
j-th written (relOffset, position) pair for 0 ≤ j ≤ k-1 and whose Read(-1)
returns the (k-1)-th pair. -/
theorem C6_index_recovery (m : Nat) (es : List (Nat × Nat)) (i0 iN : Index)
    (h0 : Index.new [] m = some i0) (hw : i0.writeAll es = some iN)
    (hk : 1 ≤ es.length) (hk32 : es.length ≤ U32)
    (hrange : ∀ e ∈ es, e.1 < U32 ∧ e.2 < U64) :
    ∃ i2, Index.new iN.close m = some i2 ∧
      (∀ j, j < es.length → i2.read (j : Int) = some (es.getD j (0, 0))) ∧
      i2.read (-1) = some (es.getD (es.length - 1) (0, 0)) := by
  have hm : m ≠ 0 ∧ m < 2 ^ 63 := by
    unfold Index.new at h0
    by_cases h1 : m = 0
    · rw [if_pos h1] at h0
      exact Option.noConfusion h0
    · rw [if_neg h1] at h0
      by_cases h2 : m < 2 ^ 63
      · exact ⟨h1, h2⟩
      · rw [if_neg h2] at h0
        exact Option.noConfusion h0
  have h0e : indexOf m [] = i0 := by
    rw [index_new_nil hm.1 hm.2] at h0
    exact Option.some.inj h0
  have hall := writeAll_indexOf hm.2 es [] iN (by simp) (by rw [h0e]; exact hw)
  have hNe : iN = indexOf m es := by
    have := hall.1
    rwa [List.nil_append] at this
  have hfits : recordWidth * es.length ≤ m := by
    have := hall.2
    rwa [List.nil_append] at this
  refine ⟨indexOf m es, ?_, ?_, ?_⟩
  · rw [hNe, indexOf_close hfits, indexOf_reopen hfits hm.1 hm.2]
  · intro j hj
    rw [indexOf_read_nat hj (lt_of_lt_of_le hj hk32)]
    have hget : es.getD j (0, 0) ∈ es := by
      rw [List.getD_eq_getElem es (0, 0) hj]
      exact List.getElem_mem hj
    have h1 := (hrange _ hget).1
    have h2 := (hrange _ hget).2
    rw [Nat.mod_eq_of_lt h1, Nat.mod_eq_of_lt h2]
  · rw [indexOf_read_last (by omega) hk32]
    have hget : es.getD (es.length - 1) (0, 0) ∈ es := by
      rw [List.getD_eq_getElem es (0, 0) (by omega)]
      exact List.getElem_mem (by omega)
    have h1 := (hrange _ hget).1
    have h2 := (hrange _ hget).2
    rw [Nat.mod_eq_of_lt h1, Nat.mod_eq_of_lt h2]

/-- Witness for C6: maxBytes 24, entries (1,10) and (2,20), mirroring
scenario S3 of the spec. -/
theorem C6_index_recovery_witness :
    ∃ i2, Index.new (indexOf 24 [(1, 10), (2, 20)]).close 24 = some i2 ∧
      (∀ j : Nat, j < 2 → i2.read (j : Int) = some ([(1, 10), (2, 20)].getD j (0, 0))) ∧
      i2.read (-1) = some (2, 20) :=
  C6_index_recovery 24 [(1, 10), (2, 20)] (indexOf 24 []) (indexOf 24 [(1, 10), (2, 20)])
    (by decide) (by decide) (by decide) (by decide) (by decide)

/-! ## Integer conversion lemmas -/

theorem toInt64_ofInt64 {i : Int} (h1 : -(2 ^ 63) ≤ i) (h2 : i < 2 ^ 63) :
    toInt64 (ofInt64 i) = i := by
  unfold toInt64 ofInt64
  simp only [U64]
  omega

theorem toInt32_mod64 (n : Nat) : toInt32 (n % U64) = toInt32 n := by
  unfold toInt32
  rw [Nat.mod_mod_of_dvd n (by decide : U32 ∣ U64)]

theorem toInt32_wrap64 (n : Nat) : toInt32 (wrap64 n) = toInt32 n :=
  toInt32_mod64 n

theorem toInt32_range (n : Nat) : -(2 ^ 31) ≤ toInt32 n ∧ toInt32 n < 2 ^ 31 := by
  unfold toInt32
  have hlt : n % U32 < U32 := Nat.mod_lt n (by decide)
  simp only [U32] at hlt ⊢
  split <;> constructor <;> omega

theorem toInt32_small {n : Nat} (h : n < 2 ^ 31) : toInt32 n = (n : Int) := by
  unfold toInt32
  have hmod : n % U32 = n := Nat.mod_eq_of_lt (by simp only [U32]; omega)
  rw [hmod, if_pos h]

theorem ofInt64_cast (n : Nat) : ofInt64 (n : Int) = n % U64 := by
  unfold ofInt64
  simp only [U64]
  omega

theorem ofInt64_toInt32_small {n : Nat} (h : n < 2 ^ 31) : ofInt64 (toInt32 n) = n := by
  rw [toInt32_small h, ofInt64_cast, Nat.mod_eq_of_lt]
  simp only [U64]
  omega

theorem toInt64_small {n : Nat} (h : n < 2 ^ 63) : toInt64 n = (n : Int) := by
  unfold toInt64
  have hmod : n % U64 = n := Nat.mod_eq_of_lt (by simp only [U64]; omega)
  rw [hmod, if_pos h]

theorem sub64_wrap_add (a b : Nat) : sub64 (wrap64 (a + b)) a = b % U64 := by
  simp only [sub64, wrap64, U64]
  omega

theorem wrap64_add_one (x : Nat) : wrap64 (wrap64 x + 1) = wrap64 (x + 1) := by
  simp only [wrap64, U64]
  omega

/-- The -1 sentinel: subtracting the base from base - 1 (uint64 wraparound)
gives 2 ^ 64 - 1, whose int64 reinterpretation is -1. -/
theorem sub64_base_pred (b : Nat) : sub64 (sub64 b 1) b = U64 - 1 := by
  simp only [sub64, U64]
  omega

theorem toInt64_u64_pred : toInt64 (U64 - 1) = -1 := by
  unfold toInt64
  norm_num [U64]

/-! ## Record and its codec

Records live in src/internal/commitlog/record. The segment encodes them
through a goavro codec obtained from schema.GetCodec (src/internal/schema);
the Avro schema json itself is embedded in the binary and is not among the
source files. -/

theorem length_codecEncode (off : Int) (v : List Nat) :
    (codecEncode off v).length = 16 + v.length := by
  simp [codecEncode, length_putU64BE]
  omega

theorem codecDecode_encode (off : Int) (v : List Nat) (hv : v.length < U64) :
    codecDecode (codecEncode off v) = some (toInt64 (ofInt64 off), v) := by
  have hlen := length_codecEncode off v
  have hfst : extract (codecEncode off v) 0 lenWidth = putU64BE (ofInt64 off) := by
    unfold codecEncode
    rw [show lenWidth = (putU64BE (ofInt64 off)).length from (length_putU64BE _).symm]
    exact extract_append_self
  have hsnd : extract (codecEncode off v) lenWidth lenWidth = putU64BE v.length := by
    unfold codecEncode
    rw [show lenWidth = (putU64BE (ofInt64 off)).length from (length_putU64BE _).symm]
    rw [extract_append_start]
    rw [show (putU64BE (ofInt64 off)).length = (putU64BE v.length).length from by
      rw [length_putU64BE, length_putU64BE]]
    exact extract_append_self
  have hval : extract (codecEncode off v) 16 v.length = v := by
    have hshape : codecEncode off v = (putU64BE (ofInt64 off) ++ putU64BE v.length) ++ v := by
      unfold codecEncode
      rw [List.append_assoc]
    have h16 : (putU64BE (ofInt64 off) ++ putU64BE v.length).length = 16 := by
      rw [List.length_append, length_putU64BE, length_putU64BE]
    rw [hshape, ← h16, extract_append_start, extract_zero_len rfl]
  unfold codecDecode
  rw [hsnd, getU64BE_putU64BE, Nat.mod_eq_of_lt hv, if_pos hlen, hfst,
    getU64BE_putU64BE]
  rw [show (codecEncode off v).length - 16 = v.length from by rw [hlen]; omega, hval]
  rw [Nat.mod_eq_of_lt (by
    have := ofInt64 off
    show ofInt64 off < U64
    unfold ofInt64
    simp only [U64]
    omega)]

/-! ## Segment (the package segment source, src/unnamed/part_003) -/

theorem vlen_cons (v : List Nat) (vs : List (List Nat)) :
    vlen (v :: vs) = (24 + v.length) + vlen vs := by
  simp [vlen]

theorem vlen_append (a b : List (List Nat)) : vlen (a ++ b) = vlen a + vlen b := by
  simp [vlen]

theorem vlen_take_le (vals : List (List Nat)) (j : Nat) :
    vlen (vals.take j) ≤ vlen vals := by
  conv_rhs => rw [← List.take_append_drop j vals]
  rw [vlen_append]
  omega

theorem storeLen_cons (p : List Nat) (ps : List (List Nat)) :
    storeLen (p :: ps) = (lenWidth + p.length) + storeLen ps := by
  simp [storeLen]

theorem segRecs_append (base : Nat) (vals : List (List Nat)) (v : List Nat) :
    segRecs base (vals ++ [v]) =
      segRecs base vals ++ [codecEncode (toInt32 (base + vals.length)) v] := by
  induction vals generalizing base with
  | nil => simp [segRecs]
  | cons w vs ih =>
    show codecEncode (toInt32 base) w :: segRecs (base + 1) (vs ++ [v]) =
      (codecEncode (toInt32 base) w :: segRecs (base + 1) vs) ++
        [codecEncode (toInt32 (base + (vs.length + 1))) v]
    have h : base + 1 + vs.length = base + (vs.length + 1) := by omega
    rw [ih (base + 1), h, List.cons_append]

theorem length_segRecs (base : Nat) (vals : List (List Nat)) :
    (segRecs base vals).length = vals.length := by
  induction vals generalizing base with
  | nil => rfl
  | cons v vs ih => simp [segRecs, ih]

theorem storeLen_segRecs (base : Nat) (vals : List (List Nat)) :
    storeLen (segRecs base vals) = vlen vals := by
  induction vals generalizing base with
  | nil => rfl
  | cons v vs ih =>
    show storeLen (codecEncode (toInt32 base) v :: segRecs (base + 1) vs) = _
    rw [storeLen_cons, length_codecEncode, ih (base + 1), vlen_cons]
    simp [lenWidth]
    omega

theorem segRecs_take (base : Nat) (vals : List (List Nat)) (j : Nat) :
    (segRecs base vals).take j = segRecs base (vals.take j) := by
  induction vals generalizing base j with
  | nil => simp [segRecs]
  | cons v vs ih =>
    cases j with
    | zero => simp [segRecs]
    | succ j => simp [segRecs, ih]

theorem segRecs_getD (base : Nat) (vals : List (List Nat)) :
    ∀ j, j < vals.length →
      (segRecs base vals).getD j [] = codecEncode (toInt32 (base + j)) (vals.getD j []) := by
  induction vals generalizing base with
  | nil => intro j h; simp at h
  | cons v vs ih =>
    intro j hj
    cases j with
    | zero => simp [segRecs]
    | succ j =>
      have hj2 : j < vs.length := by simpa using hj
      show (segRecs (base + 1) vs).getD j [] = _
      rw [ih (base + 1) j hj2]
      have h : base + 1 + j = base + (j + 1) := by omega
      rw [h]
      rfl

theorem length_segEntriesFrom (j pos : Nat) (vals : List (List Nat)) :
    (segEntriesFrom j pos vals).length = vals.length := by
  induction vals generalizing j pos with
  | nil => rfl
  | cons v vs ih => simp [segEntriesFrom, ih]

theorem segEntriesFrom_append (vals : List (List Nat)) :
    ∀ (j pos : Nat) (v : List Nat),
      segEntriesFrom j pos (vals ++ [v]) =
        segEntriesFrom j pos vals ++ [((j + vals.length) % U32, wrap64 (pos + vlen vals))] := by
  induction vals with
  | nil =>
    intro j pos v
    simp [segEntriesFrom, vlen]
  | cons w vs ih =>
    intro j pos v
    show (j % U32, wrap64 pos) :: segEntriesFrom (j + 1) (pos + (24 + w.length)) (vs ++ [v]) =
      ((j % U32, wrap64 pos) :: segEntriesFrom (j + 1) (pos + (24 + w.length)) vs) ++
        [((j + (vs.length + 1)) % U32, wrap64 (pos + vlen (w :: vs)))]
    have h1 : (j + 1) + vs.length = j + (vs.length + 1) := by omega
    have h2 : pos + (24 + w.length) + vlen vs = pos + vlen (w :: vs) := by
      rw [vlen_cons]
      omega
    rw [ih, h1, h2, List.cons_append]

theorem segEntriesFrom_getD (vals : List (List Nat)) :
    ∀ (j pos k : Nat), k < vals.length →
      (segEntriesFrom j pos vals).getD k (0, 0) =
        ((j + k) % U32, wrap64 (pos + vlen (vals.take k))) := by
  induction vals with
  | nil => intro j pos k h; simp at h
  | cons v vs ih =>
    intro j pos k hk
    cases k with
    | zero => simp [segEntriesFrom, vlen]
    | succ k =>
      have hk2 : k < vs.length := by simpa using hk
      show (segEntriesFrom (j + 1) (pos + (24 + v.length)) vs).getD k (0, 0) = _
      rw [ih (j + 1) (pos + (24 + v.length)) k hk2]
      refine congrArg₂ Prod.mk ?_ ?_
      · congr 1
        omega
      · rw [List.take_succ_cons, vlen_cons]
        congr 1
        omega

/-- Facts forced by a successful segment.New: the configured index size is
nonzero (no ErrEmptyFile) and fits an int64. -/
theorem segment_new_facts {sf xf : List Nat} {b : Nat} {c : Config} {s : Segment}
    (h : Segment.new sf xf b c = some s) :
    c.maxIndexBytes ≠ 0 ∧ c.maxIndexBytes < 2 ^ 63 := by
  unfold Segment.new at h
  unfold Index.new at h
  by_cases h1 : c.maxIndexBytes = 0
  · rw [if_pos h1] at h
    exact Option.noConfusion h
  · rw [if_neg h1] at h
    by_cases h2 : c.maxIndexBytes < 2 ^ 63
    · exact ⟨h1, h2⟩
    · rw [if_neg h2] at h
      exact Option.noConfusion h

/-- A fresh segment over empty files is the canonical empty segment. -/
theorem segment_new_nil {c : Config} {b : Nat} (h0 : c.maxIndexBytes ≠ 0)
    (h63 : c.maxIndexBytes < 2 ^ 63) (hb : b < U64) :
    Segment.new [] [] b c = some (segmentOf c b []) := by
  unfold Segment.new
  rw [index_new_nil h0 h63]
  have hread : (indexOf c.maxIndexBytes []).read (-1) = none := by
    unfold Index.read
    rw [if_pos (show (indexOf c.maxIndexBytes []).size = 0 from rfl)]
  simp only [hread]
  unfold segmentOf
  have hnext : wrap64 (b + ([] : List (List Nat)).length) = b := by
    rw [List.length_nil, Nat.add_zero]
    exact wrap64_eq_of_lt hb
  rw [hnext]
  rfl

theorem indexOf_write_none {m : Nat} {es : List (Nat × Nat)} (off pos : Nat)
    (h : ¬ recordWidth * (es.length + 1) ≤ m) :
    (indexOf m es).write off pos = none := by
  unfold Index.write
  rw [if_pos]
  have hbl := indexOf_buf_length m es
  have hsz : (indexOf m es).size = recordWidth * es.length := rfl
  rw [hbl, hsz]
  simp only [recordWidth_eq] at h ⊢
  omega

/-- One successful append on the canonical segment. -/
theorem segmentOf_append {c : Config} {base : Nat} {vals : List (List Nat)} (r : Record)
    (hfit : recordWidth * (vals.length + 1) ≤ c.maxIndexBytes)
    (h63 : c.maxIndexBytes < 2 ^ 63) :
    (segmentOf c base vals).append r =
      (some (wrap64 (base + vals.length)), segmentOf c base (vals ++ [r.value])) := by
  have henc : toInt32 (wrap64 (base + vals.length)) = toInt32 (base + vals.length) :=
    toInt32_wrap64 _
  have hoff : sub64 (wrap64 (base + vals.length)) base % U32 = (0 + vals.length) % U32 := by
    rw [sub64_wrap_add, Nat.zero_add]
    exact Nat.mod_mod_of_dvd _ (by decide)
  have hstep := storeOf_append (segRecs base vals)
    (codecEncode (toInt32 (base + vals.length)) r.value)
  have hwr := @indexOf_write c.maxIndexBytes (segEntriesFrom 0 0 vals)
    ((0 + vals.length) % U32) (wrap64 (storeLen (segRecs base vals)))
    (by rw [length_segEntriesFrom]; exact hfit) h63
  unfold Segment.append
  dsimp only
  show (match (indexOf c.maxIndexBytes (segEntriesFrom 0 0 vals)).write
      (sub64 (wrap64 (base + vals.length)) base % U32)
      ((storeOf (segRecs base vals)).append
        (codecEncode (toInt32 (wrap64 (base + vals.length))) r.value)).2.1 with
    | none => (none, { segmentOf c base vals with
        store := ((storeOf (segRecs base vals)).append
          (codecEncode (toInt32 (wrap64 (base + vals.length))) r.value)).2.2 })
    | some ix => (some (wrap64 (base + vals.length)), { segmentOf c base vals with
        store := ((storeOf (segRecs base vals)).append
          (codecEncode (toInt32 (wrap64 (base + vals.length))) r.value)).2.2,
        index := ix,
        nextOffset := wrap64 (wrap64 (base + vals.length) + 1) })) = _
  rw [henc, hoff, hstep]
  dsimp only
  rw [hwr]
  dsimp only
  refine congrArg₂ Prod.mk rfl ?_
  show Segment.mk (storeOf (segRecs base vals ++
      [codecEncode (toInt32 (base + vals.length)) r.value]))
    (indexOf c.maxIndexBytes (segEntriesFrom 0 0 vals ++
      [((0 + vals.length) % U32, wrap64 (storeLen (segRecs base vals)))]))
    c base (wrap64 (wrap64 (base + vals.length) + 1)) = _
  rw [← segRecs_append]
  rw [storeLen_segRecs]
  rw [show wrap64 (vlen vals) = wrap64 (0 + vlen vals) from by rw [Nat.zero_add]]
  rw [← segEntriesFrom_append vals 0 0 r.value]
  rw [wrap64_add_one]
  unfold segmentOf
  rw [List.length_append, List.length_cons, List.length_nil,
    show base + (vals.length + (0 + 1)) = base + vals.length + 1 from by omega]

/-- A successful append forces the new entry to fit in the index. -/
theorem segment_append_fit {c : Config} {base : Nat} {vals : List (List Nat)} {r : Record}
    {off : Nat} {s2 : Segment}
    (h : (segmentOf c base vals).append r = (some off, s2)) :
    recordWidth * (vals.length + 1) ≤ c.maxIndexBytes := by
  by_contra hcon
  unfold Segment.append at h
  dsimp only [segmentOf] at h
  have hnone := @indexOf_write_none c.maxIndexBytes (segEntriesFrom 0 0 vals)
  rw [hnone _ _ (by rw [length_segEntriesFrom]; exact hcon)] at h
  dsimp only at h
  simp only [Prod.mk.injEq] at h
  exact Option.noConfusion h.1

/-- A successful run of appends from a canonical segment state reaches the
canonical state extended with the appended values. -/
theorem appendAll_segmentOf {c : Config} (h63 : c.maxIndexBytes < 2 ^ 63)
    (rs : List Record) :
    ∀ (base : Nat) (vals : List (List Nat)) (offs : List Nat) (sN : Segment),
      (segmentOf c base vals).appendAll rs = some (offs, sN) →
      sN = segmentOf c base (vals ++ rs.map Record.value) := by
  induction rs with
  | nil =>
    intro base vals offs sN h
    unfold Segment.appendAll at h
    simp only [Option.some.injEq, Prod.mk.injEq] at h
    rw [← h.2]
    simp
  | cons r rs ih =>
    intro base vals offs sN h
    unfold Segment.appendAll at h
    rcases hap : (segmentOf c base vals).append r with ⟨o, s2⟩
    rw [hap] at h
    cases o with
    | none =>
      dsimp only at h
      exact Option.noConfusion h
    | some off =>
      dsimp only at h
      have hfit := segment_append_fit hap
      rw [segmentOf_append r hfit h63] at hap
      have hs2 : s2 = segmentOf c base (vals ++ [r.value]) := by
        have h2 := congrArg Prod.snd hap
        dsimp only at h2
        exact h2.symm
      subst hs2
      cases happ : (segmentOf c base (vals ++ [r.value])).appendAll rs with
      | none =>
        rw [happ] at h
        exact Option.noConfusion h
      | some p =>
        rw [happ] at h
        simp only [Option.some.injEq, Prod.mk.injEq] at h
        have hp := ih base (vals ++ [r.value]) p.1 p.2 (by rw [happ])
        rw [← h.2, hp]
        simp [List.append_assoc]

theorem vlen_mem_le {vals : List (List Nat)} {v : List Nat} (h : v ∈ vals) :
    24 + v.length ≤ vlen vals := by
  unfold vlen
  have hmem : (24 + v.length) ∈ vals.map (fun v => 24 + v.length) :=
    List.mem_map_of_mem _ h
  exact List.single_le_sum (by intro x hx; omega) _ hmem

/-- The index half of reading offset base + j from a canonical segment. -/
theorem segmentOf_index_read {c : Config} {base : Nat} {vals : List (List Nat)} {j : Nat}
    (hj : j < vals.length) (hj32 : j < U32) :
    (segmentOf c base vals).index.read ((j : Nat) : Int) =
      some (j % U32, wrap64 (vlen (vals.take j))) := by
  show (indexOf c.maxIndexBytes (segEntriesFrom 0 0 vals)).read (j : Int) = _
  rw [indexOf_read_nat (by rw [length_segEntriesFrom]; exact hj) hj32]
  rw [segEntriesFrom_getD vals 0 0 j hj]
  have h1 : ((0 + j) % U32, wrap64 (0 + vlen (vals.take j))).1 % U32 = j % U32 := by
    show (0 + j) % U32 % U32 = j % U32
    rw [Nat.zero_add]
    exact Nat.mod_mod_of_dvd j dvd_rfl
  have h2 : ((0 + j) % U32, wrap64 (0 + vlen (vals.take j))).2 % U64 =
      wrap64 (vlen (vals.take j)) := by
    show wrap64 (0 + vlen (vals.take j)) % U64 = _
    rw [Nat.zero_add]
    exact wrap64_wrap64 _
  rw [h1, h2]

/-- The index half of reading the last entry of a canonical segment. -/
theorem segmentOf_index_read_last {c : Config} {base : Nat} {vals : List (List Nat)}
    (hne : vals ≠ []) (hk : vals.length ≤ U32) :
    (segmentOf c base vals).index.read (-1) =
      some ((vals.length - 1) % U32, wrap64 (vlen (vals.take (vals.length - 1)))) := by
  have hpos : 0 < vals.length := List.length_pos.mpr hne
  show (indexOf c.maxIndexBytes (segEntriesFrom 0 0 vals)).read (-1) = _
  rw [indexOf_read_last (by rw [length_segEntriesFrom]; omega)
    (by rw [length_segEntriesFrom]; exact hk)]
  rw [length_segEntriesFrom]
  rw [segEntriesFrom_getD vals 0 0 (vals.length - 1) (by omega)]
  have h1 : ((0 + (vals.length - 1)) % U32,
      wrap64 (0 + vlen (vals.take (vals.length - 1)))).1 % U32 =
      (vals.length - 1) % U32 := by
    show (0 + (vals.length - 1)) % U32 % U32 = _
    rw [Nat.zero_add]
    exact Nat.mod_mod_of_dvd _ dvd_rfl
  have h2 : ((0 + (vals.length - 1)) % U32,
      wrap64 (0 + vlen (vals.take (vals.length - 1)))).2 % U64 =
      wrap64 (vlen (vals.take (vals.length - 1))) := by
    show wrap64 (0 + vlen (vals.take (vals.length - 1))) % U64 = _
    rw [Nat.zero_add]
    exact wrap64_wrap64 _
  rw [h1, h2]

/-- The store half of reading record j from a canonical segment. -/
theorem segmentOf_store_at {c : Config} {base : Nat} {vals : List (List Nat)} {j : Nat}
    (hj : j < vals.length) (hstore : vlen vals < 2 ^ 63) :
    (segmentOf c base vals).store.read (wrap64 (vlen (vals.take j))) =
      some (codecEncode (toInt32 (base + j)) (vals.getD j [])) := by
  show (storeOf (segRecs base vals)).read _ = _
  have hwl : wrap64 (vlen (vals.take j)) = vlen (vals.take j) := by
    apply wrap64_eq_of_lt
    have := vlen_take_le vals j
    simp only [U64]
    omega
  rw [hwl]
  have hpos : vlen (vals.take j) = storeLen ((segRecs base vals).take j) := by
    rw [segRecs_take, storeLen_segRecs]
  rw [hpos]
  rw [storeOf_read (by rw [length_segRecs]; exact hj)
    (by rw [storeLen_segRecs]; exact hstore)]
  rw [segRecs_getD base vals j hj]

/-- Reading offset base + j from a canonical segment round-trips the j-th
value; the returned offset field is the int32-truncated offset converted
back to uint64. -/
theorem segmentOf_read {c : Config} {base : Nat} {vals : List (List Nat)} {j : Nat}
    (hj : j < vals.length) (hj32 : j < U32) (hstore : vlen vals < 2 ^ 63) :
    (segmentOf c base vals).read (wrap64 (base + j)) =
      some ⟨vals.getD j [], ofInt64 (toInt32 (base + j))⟩ := by
  have hv : (vals.getD j []).length < U64 := by
    have hmem : vals.getD j [] ∈ vals := by
      rw [List.getD_eq_getElem vals [] hj]
      exact List.getElem_mem hj
    have := vlen_mem_le hmem
    simp only [U64]
    omega
  have hr := toInt32_range (base + j)
  unfold Segment.read
  have htoi : toInt64 (sub64 (wrap64 (base + j)) (segmentOf c base vals).baseOffset) =
      ((j : Nat) : Int) := by
    show toInt64 (sub64 (wrap64 (base + j)) base) = _
    rw [sub64_wrap_add, Nat.mod_eq_of_lt (by simp only [U32, U64] at hj32 ⊢; omega)]
    exact toInt64_small (by simp only [U32] at hj32 ⊢; omega)
  rw [htoi, segmentOf_index_read hj hj32]
  dsimp only
  rw [segmentOf_store_at hj hstore]
  dsimp only
  rw [codecDecode_encode _ _ hv]
  dsimp only
  rw [toInt64_ofInt64 (by omega) (by omega)]

/-- Reading base - 1 (uint64 wraparound) from a non-empty canonical segment
returns the most recently appended record via the -1 sentinel. -/
theorem segmentOf_read_pred {c : Config} {base : Nat} {vals : List (List Nat)}
    (hne : vals ≠ []) (hk : vals.length ≤ U32) (hstore : vlen vals < 2 ^ 63) :
    (segmentOf c base vals).read (sub64 base 1) =
      some ⟨vals.getD (vals.length - 1) [],
        ofInt64 (toInt32 (base + (vals.length - 1)))⟩ := by
  have hpos : 0 < vals.length := List.length_pos.mpr hne
  have hj : vals.length - 1 < vals.length := by omega
  have hv : (vals.getD (vals.length - 1) []).length < U64 := by
    have hmem : vals.getD (vals.length - 1) [] ∈ vals := by
      rw [List.getD_eq_getElem vals [] hj]
      exact List.getElem_mem hj
    have := vlen_mem_le hmem
    simp only [U64]
    omega
  have hr := toInt32_range (base + (vals.length - 1))
  unfold Segment.read
  have htoi : toInt64 (sub64 (sub64 base 1) (segmentOf c base vals).baseOffset) =
      (-1 : Int) := by
    show toInt64 (sub64 (sub64 base 1) base) = -1
    rw [sub64_base_pred]
    exact toInt64_u64_pred
  rw [htoi, segmentOf_index_read_last hne hk]
  dsimp only
  rw [segmentOf_store_at hj hstore]
  dsimp only
  rw [codecDecode_encode _ _ hv]
  dsimp only
  rw [toInt64_ofInt64 (by omega) (by omega)]

/-- C9: whenever Segment.Append fails, NextOffset is unchanged (and so is
the index), although the encoded record has already been written to the
store. In the embedding the codec is total and the store cannot fail, so
the realizable failure is exactly the index end-of-space case the claim
describes. -/
theorem C9_failed_append (s : Segment) (r : Record) (h : (s.append r).1 = none) :
    (s.append r).2.nextOffset = s.nextOffset ∧
    (s.append r).2.index = s.index ∧
    (s.append r).2.store.data =
      s.store.data ++ storeRecBytes (codecEncode (toInt32 s.nextOffset) r.value) := by
  unfold Segment.append at h ⊢
  dsimp only at h ⊢
  cases hw : s.index.write (sub64 s.nextOffset s.baseOffset % U32)
      (s.store.append (codecEncode (toInt32 s.nextOffset) r.value)).2.1 with
  | none =>
    dsimp only
    refine ⟨rfl, rfl, ?_⟩
    show s.store.data ++ putU64BE (codecEncode (toInt32 s.nextOffset) r.value).length ++
      codecEncode (toInt32 s.nextOffset) r.value = _
    rw [storeRecBytes, List.append_assoc]
  | some ix =>
    rw [hw] at h
    dsimp only at h
    exact Option.noConfusion h

/-- Witness for C9: a segment whose index mapping has no room. -/
theorem C9_failed_append_witness :
    ((⟨⟨[], 0⟩, ⟨[], 0⟩, ⟨0, 1024, 12⟩, 0, 0⟩ : Segment).append ⟨[104], 0⟩).1 = none ∧
    ((⟨⟨[], 0⟩, ⟨[], 0⟩, ⟨0, 1024, 12⟩, 0, 0⟩ : Segment).append ⟨[104], 0⟩).2.nextOffset =
      (⟨⟨[], 0⟩, ⟨[], 0⟩, ⟨0, 1024, 12⟩, 0, 0⟩ : Segment).nextOffset :=
  ⟨by decide,
    (C9_failed_append ⟨⟨[], 0⟩, ⟨[], 0⟩, ⟨0, 1024, 12⟩, 0, 0⟩ ⟨[104], 0⟩ (by decide)).1⟩

theorem getD_map_value (rs : List Record) (j : Nat) (h : j < rs.length) :
    (rs.map Record.value).getD j [] = (rs.getD j ⟨[], 0⟩).value := by
  rw [List.getD_eq_getElem _ _ (by simpa using h), List.getD_eq_getElem _ _ h]
  simp

/-- C4 (amended): in every segment state reached from a fresh segment by
successful appends, for every absolute offset o with
baseOffset ≤ o < nextOffset such that o < 2 ^ 31, the index contains an
entry at relative offset o - baseOffset whose stored relative offset is
o - baseOffset, and the store holds a decodable record at the position held
by that entry whose embedded offset field reads back as o. (For o ≥ 2 ^ 31
the int32 truncation in Segment.Append makes the embedded field differ from
o: see the counterexample.) -/
theorem C4_segment_invariant (c : Config) (base : Nat) (rs : List Record)
    (offs : List Nat) (s0 sN : Segment)
    (h0 : Segment.new [] [] base c = some s0)
    (hrun : s0.appendAll rs = some (offs, sN))
    (hbase : base + rs.length < U64)
    (hstore : vlen (rs.map Record.value) < 2 ^ 63)
    (o : Nat) (h1 : sN.baseOffset ≤ o) (h2 : o < sN.nextOffset) (ho : o < 2 ^ 31) :
    ∃ pos, sN.index.read (((o - sN.baseOffset : Nat) : Int)) =
        some (o - sN.baseOffset, pos) ∧
      ∃ data, sN.store.read pos = some data ∧
        ∃ d, codecDecode data = some d ∧ ofInt64 d.1 = o := by
  obtain ⟨hm0, hm63⟩ := segment_new_facts h0
  have hb64 : base < U64 := by omega
  rw [segment_new_nil hm0 hm63 hb64] at h0
  have hs0 : s0 = segmentOf c base [] := (Option.some.inj h0).symm
  subst hs0
  have hsN := appendAll_segmentOf hm63 rs base [] offs sN hrun
  rw [List.nil_append] at hsN
  subst hsN
  have hbaseN : (segmentOf c base (rs.map Record.value)).baseOffset = base := rfl
  have hlenv : (rs.map Record.value).length = rs.length := List.length_map _ _
  have hnextN : (segmentOf c base (rs.map Record.value)).nextOffset = base + rs.length := by
    show wrap64 (base + (rs.map Record.value).length) = _
    rw [hlenv]
    exact wrap64_eq_of_lt (by omega)
  rw [hbaseN] at h1 ⊢
  rw [hnextN] at h2
  have hj : o - base < (rs.map Record.value).length := by rw [hlenv]; omega
  have hj32 : o - base < U32 := by simp only [U32]; omega
  have hoeq : base + (o - base) = o := by omega
  refine ⟨wrap64 (vlen ((rs.map Record.value).take (o - base))), ?_, ?_⟩
  · rw [segmentOf_index_read hj hj32]
    rw [Nat.mod_eq_of_lt hj32]
  · rw [segmentOf_store_at hj hstore]
    have hv : ((rs.map Record.value).getD (o - base) []).length < U64 := by
      have hmem : (rs.map Record.value).getD (o - base) [] ∈ rs.map Record.value := by
        rw [List.getD_eq_getElem _ [] hj]
        exact List.getElem_mem hj
      have := vlen_mem_le hmem
      simp only [U64]
      omega
    refine ⟨_, rfl, ?_⟩
    rw [codecDecode_encode _ _ hv]
    refine ⟨_, rfl, ?_⟩
    have hr := toInt32_range (base + (o - base))
    rw [toInt64_ofInt64 (by omega) (by omega)]
    rw [hoeq]
    exact ofInt64_toInt32_small ho

/-- Counterexample to C4 as stated: with baseOffset 2 ^ 31 and one appended
record, the embedded offset field read back from the store is
2 ^ 64 - 2 ^ 31, not the absolute offset 2 ^ 31, because Segment.Append
passes the offset through int32 and Segment.Read converts the decoded int64
back to uint64. -/
theorem C4_counterexample :
    ((Segment.new [] [] (2 ^ 31) ⟨0, 1024, 48⟩).bind (fun s0 =>
      (s0.appendAll [⟨[97], 0⟩]).map (fun p =>
        (p.2.read (2 ^ 31)).map Record.offset))) =
      some (some (2 ^ 64 - 2 ^ 31)) ∧ 2 ^ 64 - 2 ^ 31 ≠ 2 ^ 31 := by
  constructor
  · rfl
  · decide

/-- Witness for C4 at a concrete input: fresh segment at base 5, two records
appended, offset 6 inspected. -/
theorem C4_segment_invariant_witness :
    ∃ pos, (segmentOf ⟨0, 1024, 48⟩ 5 [[97], [98, 99]]).index.read
        (((6 - (segmentOf ⟨0, 1024, 48⟩ 5 [[97], [98, 99]]).baseOffset : Nat) : Int)) =
        some (6 - (segmentOf ⟨0, 1024, 48⟩ 5 [[97], [98, 99]]).baseOffset, pos) ∧
      ∃ data, (segmentOf ⟨0, 1024, 48⟩ 5 [[97], [98, 99]]).store.read pos = some data ∧
        ∃ d, codecDecode data = some d ∧ ofInt64 d.1 = 6 :=
  C4_segment_invariant ⟨0, 1024, 48⟩ 5 [⟨[97], 0⟩, ⟨[98, 99], 0⟩] [5, 6]
    (segmentOf ⟨0, 1024, 48⟩ 5 []) (segmentOf ⟨0, 1024, 48⟩ 5 [[97], [98, 99]])
    (by decide) (by decide) (by decide) (by decide) 6 (by decide) (by decide) (by decide)

/-- C10: for a segment holding at least one record, Segment.Read at
BaseOffset - 1 does not return an error: the uint64 subtraction
off - BaseOffset wraps to 2 ^ 64 - 1, whose int64 reinterpretation is -1,
which Index.Read treats as the last entry, so the read returns the most
recently appended record. -/
theorem C10_read_below_base (c : Config) (base : Nat) (rs : List Record)
    (offs : List Nat) (s0 sN : Segment)
    (h0 : Segment.new [] [] base c = some s0)
    (hrun : s0.appendAll rs = some (offs, sN))
    (hne : rs ≠ []) (hbase : base < U64) (hk : rs.length ≤ U32)
    (hstore : vlen (rs.map Record.value) < 2 ^ 63) :
    sN.read (sub64 sN.baseOffset 1) =
      some ⟨(rs.getD (rs.length - 1) ⟨[], 0⟩).value,
        ofInt64 (toInt32 (base + (rs.length - 1)))⟩ := by
  obtain ⟨hm0, hm63⟩ := segment_new_facts h0
  rw [segment_new_nil hm0 hm63 hbase] at h0
  have hs0 : s0 = segmentOf c base [] := (Option.some.inj h0).symm
  subst hs0
  have hsN := appendAll_segmentOf hm63 rs base [] offs sN hrun
  rw [List.nil_append] at hsN
  subst hsN
  have hlenv : (rs.map Record.value).length = rs.length := List.length_map _ _
  have hpos : 0 < rs.length := List.length_pos.mpr hne
  have hnemap : rs.map Record.value ≠ [] := by
    intro hcon
    have h2 := congrArg List.length hcon
    rw [hlenv] at h2
    simp only [List.length_nil] at h2
    omega
  have hbaseN : (segmentOf c base (rs.map Record.value)).baseOffset = base := rfl
  rw [hbaseN]
  rw [segmentOf_read_pred hnemap (by rw [hlenv]; exact hk) hstore]
  rw [hlenv]
  refine congrArg some (congrArg₂ Record.mk ?_ rfl)
  exact getD_map_value rs (rs.length - 1) (by omega)

/-- Witness for C10: two records appended at base 0; reading offset
2 ^ 64 - 1 (that is, 0 - 1 in uint64) yields the second record. -/
theorem C10_read_below_base_witness :
    (segmentOf ⟨0, 1024, 48⟩ 0 [[97], [98]]).read
        (sub64 (segmentOf ⟨0, 1024, 48⟩ 0 [[97], [98]]).baseOffset 1) =
      some ⟨[98], ofInt64 (toInt32 (0 + (2 - 1)))⟩ :=
  C10_read_below_base ⟨0, 1024, 48⟩ 0 [⟨[97], 0⟩, ⟨[98], 0⟩] [0, 1]
    (segmentOf ⟨0, 1024, 48⟩ 0 []) (segmentOf ⟨0, 1024, 48⟩ 0 [[97], [98]])
    (by decide) (by decide) (by decide) (by decide) (by decide) (by decide)

/-! ## Log (src/internal/commitlog/log/log.go) -/

theorem partsCount_cons (p : Nat × List (List Nat)) (ps : List (Nat × List (List Nat))) :
    partsCount (p :: ps) = p.2.length + partsCount ps := by
  simp [partsCount]

theorem partsCount_concat (ps qs : List (Nat × List (List Nat))) :
    partsCount (ps ++ qs) = partsCount ps + partsCount qs := by
  simp [partsCount]

theorem partsVals_cons (p : Nat × List (List Nat)) (ps : List (Nat × List (List Nat))) :
    partsVals (p :: ps) = p.2 ++ partsVals ps := by
  simp [partsVals]

theorem partsVals_concat (ps qs : List (Nat × List (List Nat))) :
    partsVals (ps ++ qs) = partsVals ps ++ partsVals qs := by
  simp [partsVals]

theorem length_partsVals (ps : List (Nat × List (List Nat))) :
    (partsVals ps).length = partsCount ps := by
  induction ps with
  | nil => rfl
  | cons p ps ih =>
    rw [partsVals_cons, List.length_append, ih, partsCount_cons]

theorem partsSegs_cons (c : Config) (p : Nat × List (List Nat))
    (ps : List (Nat × List (List Nat))) :
    partsSegs c (p :: ps) = segmentOf c p.1 p.2 :: partsSegs c ps := by
  simp [partsSegs]

theorem partsSegs_concat (c : Config) (ps qs : List (Nat × List (List Nat))) :
    partsSegs c (ps ++ qs) = partsSegs c ps ++ partsSegs c qs := by
  simp [partsSegs]

theorem contigFrom_concat (p : Nat × List (List Nat)) :
    ∀ (ps : List (Nat × List (List Nat))) (b : Nat),
      contigFrom b (ps ++ [p]) ↔ contigFrom b ps ∧ p.1 = b + partsCount ps := by
  intro ps
  induction ps with
  | nil =>
    intro b
    show (p.1 = b ∧ True) ↔ (True ∧ p.1 = b + partsCount [])
    rw [show partsCount [] = 0 from rfl]
    constructor
    · rintro ⟨h1, -⟩
      exact ⟨trivial, by omega⟩
    · rintro ⟨-, h1⟩
      exact ⟨by omega, trivial⟩
  | cons q qs ih =>
    intro b
    show (q.1 = b ∧ contigFrom (b + q.2.length) (qs ++ [p])) ↔ _
    rw [ih (b + q.2.length)]
    show _ ↔ (q.1 = b ∧ contigFrom (b + q.2.length) qs) ∧
      p.1 = b + partsCount (q :: qs)
    rw [partsCount_cons]
    constructor
    · rintro ⟨h1, h2, h3⟩
      exact ⟨⟨h1, h2⟩, by omega⟩
    · rintro ⟨⟨h1, h2⟩, h3⟩
      exact ⟨h1, h2, by omega⟩

theorem contigFrom_mem_le :
    ∀ (ps : List (Nat × List (List Nat))) (b : Nat), contigFrom b ps →
      ∀ p ∈ ps, b ≤ p.1 ∧ p.1 + p.2.length ≤ b + partsCount ps := by
  intro ps
  induction ps with
  | nil => intro b _ p hp; simp at hp
  | cons q qs ih =>
    intro b hc p hp
    obtain ⟨h1, h2⟩ := hc
    rw [partsCount_cons]
    rcases List.mem_cons.mp hp with rfl | hp2
    · constructor
      · omega
      · have := ih (b + p.2.length) h2
        omega
    · have := ih (b + q.2.length) h2 p hp2
      omega

theorem getD_append_last (l : List Nat) (x : Nat) :
    (l ++ [x]).getD l.length 0 = x := by
  simp [List.getD_append_right]

/-- The master invariant of reachable logs: the structural shape and the
returned-offset specification, by induction along the append history. -/
theorem lreach_inv {c : Config} {l : Log} {rs : List Record} {rets : List Nat}
    (h : LReach c l rs rets) :
    c.initialOffset + rs.length < U64 →
    LogShape c l rs ∧ RetsOK c.initialOffset rs.length rets := by
  induction h with
  | init l hnew =>
    intro hb
    constructor
    · unfold Log.new setup at hnew
      simp only [List.map_nil, List.flatten_nil, List.isEmpty_nil, if_true] at hnew
      cases hseg : Segment.new [] [] (applyDefaults c).initialOffset (applyDefaults c) with
      | none =>
        rw [hseg] at hnew
        exact Option.noConfusion hnew
      | some seg =>
        rw [hseg] at hnew
        simp only [Option.some.injEq] at hnew
        obtain ⟨hm0, hm63⟩ := segment_new_facts hseg
        have hinit : (applyDefaults c).initialOffset = c.initialOffset := rfl
        rw [hinit, segment_new_nil hm0 hm63 (by
          simp only [List.length_nil] at hb
          omega)] at hseg
        have hsegeq : seg = segmentOf (applyDefaults c) c.initialOffset [] :=
          (Option.some.inj hseg).symm
        refine ⟨[], (c.initialOffset, []), ?_, ?_, ?_, ⟨rfl, trivial⟩, rfl, ?_, ?_, hm0, hm63⟩
        · rw [← hnew]
        · rw [← hnew, hsegeq]
          rfl
        · rw [← hnew, hsegeq]
        · intro p hp
          simp only [List.nil_append, List.mem_singleton] at hp
          subst hp
          simp [recordWidth_eq]
        · intro p hp
          simp at hp
    · refine ⟨rfl, ?_⟩
      intro k hk
      simp only [List.length_nil] at hk
      omega
  | step l rs rets r off l2 hre hap ih =>
    intro hb
    rw [List.length_append, List.length_cons, List.length_nil] at hb
    obtain ⟨⟨ps, cur, hcfg, hsegs, hact, hcontig, hvals, hfits, hmid, hm0, hm63⟩, hlen, hdis⟩ :=
      ih (by omega)
    have hcnt : partsCount (ps ++ [cur]) = rs.length := by
      have h2 := congrArg List.length hvals
      rw [length_partsVals, List.length_map] at h2
      exact h2
    have hcnt2 : partsCount (ps ++ [cur]) = partsCount ps + cur.2.length := by
      rw [partsCount_concat, partsCount_cons]
      simp [partsCount]
    obtain ⟨hcontig0, hcur1⟩ := (contigFrom_concat cur ps c.initialOffset).mp hcontig
    have hend : cur.1 + cur.2.length = c.initialOffset + rs.length := by omega
    have hdropl : l.segments.dropLast = partsSegs (applyDefaults c) ps := by
      rw [hsegs, partsSegs_concat]
      rw [show partsSegs (applyDefaults c) [cur] =
        [segmentOf (applyDefaults c) cur.1 cur.2] from rfl]
      exact List.dropLast_concat
    unfold Log.append at hap
    rw [hact] at hap
    rcases hsa : (segmentOf (applyDefaults c) cur.1 cur.2).append r with ⟨o, seg⟩
    rw [hsa] at hap
    cases o with
    | none =>
      dsimp only at hap
      simp only [Prod.mk.injEq] at hap
      exact Option.noConfusion hap.1
    | some off0 =>
      dsimp only at hap
      have hfit := segment_append_fit hsa
      rw [segmentOf_append r hfit hm63] at hsa
      have hoff0 : off0 = cur.1 + cur.2.length := by
        have h2 := congrArg Prod.fst hsa
        dsimp only at h2
        have h3 := Option.some.inj h2
        rw [wrap64_eq_of_lt (by omega)] at h3
        exact h3.symm
      have hsegeq : seg = segmentOf (applyDefaults c) cur.1 (cur.2 ++ [r.value]) := by
        have h2 := congrArg Prod.snd hsa
        dsimp only at h2
        exact h2.symm
      subst hsegeq
      by_cases hfull : (segmentOf (applyDefaults c) cur.1 (cur.2 ++ [r.value])).isFull = true
      · rw [if_pos hfull] at hap
        have hb1 : off0 + 1 < U64 := by omega
        rw [wrap64_eq_of_lt hb1, hcfg, segment_new_nil hm0 hm63 (by omega)] at hap
        dsimp only at hap
        simp only [Prod.mk.injEq, Option.some.injEq] at hap
        obtain ⟨hoffeq, hl2⟩ := hap
        constructor
        · refine ⟨ps ++ [(cur.1, cur.2 ++ [r.value])], (off0 + 1, []),
            ?_, ?_, ?_, ?_, ?_, ?_, ?_, hm0, hm63⟩
          · rw [← hl2]
          · rw [← hl2]
            show l.segments.dropLast ++ [segmentOf (applyDefaults c) cur.1 (cur.2 ++ [r.value])] ++
              [segmentOf (applyDefaults c) (off0 + 1) []] = _
            rw [hdropl, partsSegs_concat, partsSegs_concat]
            rfl
          · rw [← hl2]
          · rw [contigFrom_concat]
            refine ⟨?_, ?_⟩
            · rw [contigFrom_concat]
              exact ⟨hcontig0, hcur1⟩
            · rw [partsCount_concat, partsCount_cons]
              show off0 + 1 = c.initialOffset + (partsCount ps + ((cur.2 ++ [r.value]).length + partsCount []))
              rw [List.length_append, List.length_cons, List.length_nil]
              show off0 + 1 = c.initialOffset + (partsCount ps + (cur.2.length + 1 + partsCount []))
              rw [show partsCount ([] : List (Nat × List (List Nat))) = 0 from rfl]
              omega
          · rw [partsVals_concat, partsVals_concat, partsVals_cons, partsVals_cons]
            show partsVals ps ++ ((cur.2 ++ [r.value]) ++ partsVals []) ++ ([] ++ partsVals []) =
              (rs ++ [r]).map Record.value
            rw [show partsVals ([] : List (Nat × List (List Nat))) = [] from rfl]
            rw [List.map_append]
            have hpv : partsVals (ps ++ [cur]) = partsVals ps ++ cur.2 := by
              rw [partsVals_concat, partsVals_cons]
              simp [partsVals]
            rw [hpv] at hvals
            rw [← hvals]
            simp [List.append_assoc]
          · intro p hp
            rcases List.mem_append.mp hp with hp2 | hp2
            · rcases List.mem_append.mp hp2 with hp3 | hp3
              · exact hfits p (by simp [List.mem_append]; left; exact hp3)
              · simp only [List.mem_singleton] at hp3
                subst hp3
                show recordWidth * (cur.2 ++ [r.value]).length ≤ _
                rw [List.length_append, List.length_cons, List.length_nil]
                exact hfit
            · simp only [List.mem_singleton] at hp2
              subst hp2
              simp
          · intro p hp
            rcases List.mem_append.mp hp with hp2 | hp2
            · exact hmid p hp2
            · simp only [List.mem_singleton] at hp2
              subst hp2
              simp
        · refine ⟨?_, ?_⟩
          · rw [List.length_append, List.length_append, hlen]
            rfl
          · intro k hk
            rw [List.length_append, List.length_cons, List.length_nil] at hk
            by_cases hklt : k < rs.length
            · rw [List.getD_append _ _ 0 k (by omega)]
              exact hdis k hklt
            · have hkeq : k = rs.length := by omega
              subst hkeq
              rw [← hlen, getD_append_last]
              right
              omega
      · rw [if_neg hfull] at hap
        simp only [Prod.mk.injEq, Option.some.injEq] at hap
        obtain ⟨hoffeq, hl2⟩ := hap
        constructor
        · refine ⟨ps, (cur.1, cur.2 ++ [r.value]), ?_, ?_, ?_, ?_, ?_, ?_, ?_, hm0, hm63⟩
          · rw [← hl2]
            exact hcfg
          · rw [← hl2]
            show l.segments.dropLast ++ [segmentOf (applyDefaults c) cur.1 (cur.2 ++ [r.value])] = _
            rw [hdropl, partsSegs_concat]
            rfl
          · rw [← hl2]
          · rw [contigFrom_concat]
            exact ⟨hcontig0, hcur1⟩
          · rw [partsVals_concat, partsVals_cons]
            show partsVals ps ++ ((cur.2 ++ [r.value]) ++ partsVals []) = (rs ++ [r]).map Record.value
            rw [show partsVals ([] : List (Nat × List (List Nat))) = [] from rfl]
            rw [List.map_append]
            have hpv : partsVals (ps ++ [cur]) = partsVals ps ++ cur.2 := by
              rw [partsVals_concat, partsVals_cons]
              simp [partsVals]
            rw [hpv] at hvals
            rw [← hvals]
            simp [List.append_assoc]
          · intro p hp
            rcases List.mem_append.mp hp with hp2 | hp2
            · exact hfits p (by simp [List.mem_append]; left; exact hp2)
            · simp only [List.mem_singleton] at hp2
              subst hp2
              show recordWidth * (cur.2 ++ [r.value]).length ≤ _
              rw [List.length_append, List.length_cons, List.length_nil]
              exact hfit
          · exact hmid
        · refine ⟨?_, ?_⟩
          · rw [List.length_append, List.length_append, hlen]
            rfl
          · intro k hk
            rw [List.length_append, List.length_cons, List.length_nil] at hk
            by_cases hklt : k < rs.length
            · rw [List.getD_append _ _ 0 k (by omega)]
              exact hdis k hklt
            · have hkeq : k = rs.length := by omega
              subst hkeq
              rw [← hlen, getD_append_last]
              left
              omega

theorem log_read_eq_bind (l : Log) (o : Nat) :
    l.read o = ((l.segments.find? (fun s => s.baseOffset ≤ o && o < s.nextOffset)).bind
      (fun s => s.read o)) := by
  unfold Log.read
  cases l.segments.find? (fun s => s.baseOffset ≤ o && o < s.nextOffset) <;> rfl

theorem vlen_part_le :
    ∀ (ps : List (Nat × List (List Nat))) (p : Nat × List (List Nat)), p ∈ ps →
      vlen p.2 ≤ vlen (partsVals ps) := by
  intro ps
  induction ps with
  | nil => intro p hp; simp at hp
  | cons q qs ih =>
    intro p hp
    rw [partsVals_cons, vlen_append]
    rcases List.mem_cons.mp hp with rfl | hp2
    · omega
    · have := ih p hp2
      omega

/-- Log.Read over the canonical segments: the linear search finds the part
containing the offset, and reading it returns the value at the global
position together with the truncation-roundtripped offset. -/
theorem partsSegs_find_read (c' : Config) (o : Nat) :
    ∀ (parts : List (Nat × List (List Nat))) (b : Nat),
      contigFrom b parts → b ≤ o → o < b + partsCount parts →
      o - b < U32 → b + partsCount parts < U64 →
      (∀ p ∈ parts, vlen p.2 < 2 ^ 63) →
      ((partsSegs c' parts).find? (fun s => s.baseOffset ≤ o && o < s.nextOffset)).bind
          (fun s => s.read o) =
        some ⟨(partsVals parts).getD (o - b) [], ofInt64 (toInt32 o)⟩ := by
  intro parts
  induction parts with
  | nil =>
    intro b _ hle hlt _ _ _
    rw [show partsCount [] = 0 from rfl] at hlt
    omega
  | cons p rest ih =>
    intro b hc hle hlt h32 hU64 hst
    obtain ⟨hp1, hcrest⟩ := hc
    rw [partsSegs_cons]
    rw [partsCount_cons] at hlt hU64
    have hbase : (segmentOf c' p.1 p.2).baseOffset = p.1 := rfl
    have hnext : (segmentOf c' p.1 p.2).nextOffset = b + p.2.length := by
      show wrap64 (p.1 + p.2.length) = _
      rw [hp1, wrap64_eq_of_lt (by omega)]
    by_cases hin : o < b + p.2.length
    · have hfind : (segmentOf c' p.1 p.2 :: partsSegs c' rest).find?
          (fun s => s.baseOffset ≤ o && o < s.nextOffset) =
          some (segmentOf c' p.1 p.2) := by
        apply List.find?_cons_of_pos
        rw [hbase, hnext, hp1]
        simp only [Bool.and_eq_true, decide_eq_true_eq]
        exact ⟨hle, hin⟩
      rw [hfind]
      show (segmentOf c' p.1 p.2).read o = _
      have hj : o - b < p.2.length := by omega
      have hread := @segmentOf_read c' p.1 p.2 (o - b) hj h32
        (hst p (by simp))
      have harg : p.1 + (o - b) = o := by omega
      rw [harg, wrap64_eq_of_lt (by omega : o < U64)] at hread
      rw [hread, partsVals_cons, List.getD_append _ _ [] (o - b) hj]
    · have hfind : (segmentOf c' p.1 p.2 :: partsSegs c' rest).find?
          (fun s => s.baseOffset ≤ o && o < s.nextOffset) =
          (partsSegs c' rest).find? (fun s => s.baseOffset ≤ o && o < s.nextOffset) := by
        apply List.find?_cons_of_neg
        rw [hbase, hnext, hp1]
        simp only [Bool.and_eq_true, decide_eq_true_eq, not_and, not_lt]
        intro _
        omega
      rw [hfind]
      have hrec := ih (b + p.2.length) hcrest (by omega) (by omega) (by omega)
        (by omega) (fun q hq => hst q (by simp [hq]))
      rw [hrec, partsVals_cons,
        List.getD_append_right p.2 (partsVals rest) [] (o - b)
          (by omega : p.2.length ≤ o - b)]
      congr 3
      omega

/-- C1 (amended): for every record appended whose append did not trigger a
rollover (the returned offset equals the assigned offset initialOffset + k)
and whose assigned offset is below 2 ^ 31, Log.Read at the returned offset
returns a record whose value bytes equal the appended value and whose
offset equals the returned offset. (An append that fills the segment
returns assigned + 1 instead, where Read fails out-of-range: see the
counterexample; and at offsets at or above 2 ^ 31 the stored offset field
is truncated: see the C4 counterexample.) -/
theorem C1_roundtrip_amended (c : Config) (l : Log) (rs : List Record) (rets : List Nat)
    (h : LReach c l rs rets) (k : Nat) (hk : k < rs.length)
    (hnr : rets.getD k 0 = c.initialOffset + k)
    (ho : c.initialOffset + k < 2 ^ 31)
    (hb : c.initialOffset + rs.length < U64)
    (hstore : vlen (rs.map Record.value) < 2 ^ 63) :
    l.read (rets.getD k 0) =
      some ⟨(rs.getD k ⟨[], 0⟩).value, rets.getD k 0⟩ := by
  obtain ⟨⟨ps, cur, hcfg, hsegs, hact, hcontig, hvals, hfits, hmid, hm0, hm63⟩, -, -⟩ :=
    lreach_inv h hb
  rw [hnr]
  have hcnt : partsCount (ps ++ [cur]) = rs.length := by
    have h2 := congrArg List.length hvals
    rw [length_partsVals, List.length_map] at h2
    exact h2
  have hread := partsSegs_find_read (applyDefaults c) (c.initialOffset + k) (ps ++ [cur])
    c.initialOffset hcontig (by omega) (by omega)
    (by simp only [U32]; omega) (by omega)
    (fun p hp => by
      have h1 := vlen_part_le (ps ++ [cur]) p hp
      rw [hvals] at h1
      omega)
  rw [log_read_eq_bind, hsegs, hread, hvals]
  have hksub : c.initialOffset + k - c.initialOffset = k := by omega
  rw [hksub, getD_map_value rs k hk, ofInt64_toInt32_small ho]

/-- Counterexample to C1 as stated: with one-entry segments, the very first
append fills the segment and Log.Append returns offset 1 (the next writable
offset) while the record sits at offset 0; Log.Read(1) then fails with
out-of-range. -/
theorem C1_counterexample :
    ((Log.new [] ⟨0, 1024, 12⟩).bind (fun l0 =>
      (l0.appendAll [⟨[104, 105], 0⟩]).map (fun p =>
        (p.1, (p.2.read (p.1.getD 0 0)).isNone)))) = some ([1], true) := by
  rfl

/-- Extension of reachability by a successful run of appends. -/
theorem lreach_extend {c : Config} :
    ∀ (rs2 : List Record) (l : Log) (rs : List Record) (rets rets2 : List Nat) (l2 : Log),
      LReach c l rs rets → l.appendAll rs2 = some (rets2, l2) →
      LReach c l2 (rs ++ rs2) (rets ++ rets2) := by
  intro rs2
  induction rs2 with
  | nil =>
    intro l rs rets rets2 l2 hre hrun
    unfold Log.appendAll at hrun
    simp only [Option.some.injEq, Prod.mk.injEq] at hrun
    rw [← hrun.1, ← hrun.2]
    simpa using hre
  | cons r rest ih =>
    intro l rs rets rets2 l2 hre hrun
    unfold Log.appendAll at hrun
    rcases hap : l.append r with ⟨o, l1⟩
    rw [hap] at hrun
    cases o with
    | none => exact Option.noConfusion hrun
    | some off =>
      dsimp only at hrun
      cases hrest : l1.appendAll rest with
      | none =>
        rw [hrest] at hrun
        exact Option.noConfusion hrun
      | some p =>
        rw [hrest] at hrun
        simp only [Option.some.injEq, Prod.mk.injEq] at hrun
        have hstep := LReach.step l rs rets r off l1 hre hap
        have := ih l1 (rs ++ [r]) (rets ++ [off]) p.1 p.2 hstep (by rw [hrest])
        rw [← hrun.1, ← hrun.2]
        simpa [List.append_assoc] using this

/-- Reachability of the result of a successful fresh run. -/
theorem newAppendAll_lreach (c : Config) (rs : List Record) (l0 l : Log) (rets : List Nat)
    (h0 : Log.new [] c = some l0) (h : l0.appendAll rs = some (rets, l)) :
    LReach c l rs rets := by
  have := lreach_extend rs l0 [] [] rets l (LReach.init l0 h0) h
  simpa using this

theorem C1_roundtrip_amended_witness :
    Log.read ⟨[segmentOf ⟨0, 1024, 48⟩ 0 [[97], [98]]],
        segmentOf ⟨0, 1024, 48⟩ 0 [[97], [98]], ⟨0, 1024, 48⟩⟩
      (List.getD [0, 1] 1 0) =
      some ⟨(List.getD ([⟨[97], 0⟩, ⟨[98], 0⟩] : List Record) 1 ⟨[], 0⟩).value,
        List.getD [0, 1] 1 0⟩ :=
  C1_roundtrip_amended ⟨0, 1024, 48⟩ _ [⟨[97], 0⟩, ⟨[98], 0⟩] [0, 1]
    (newAppendAll_lreach ⟨0, 1024, 48⟩ [⟨[97], 0⟩, ⟨[98], 0⟩]
      ⟨[segmentOf ⟨0, 1024, 48⟩ 0 []], segmentOf ⟨0, 1024, 48⟩ 0 [], ⟨0, 1024, 48⟩⟩
      ⟨[segmentOf ⟨0, 1024, 48⟩ 0 [[97], [98]]],
        segmentOf ⟨0, 1024, 48⟩ 0 [[97], [98]], ⟨0, 1024, 48⟩⟩
      [0, 1] (by decide) (by decide))
    1 (by decide) (by decide) (by decide) (by decide) (by decide)

/-- C2 (amended): a successful append returns either the offset assigned to
the record (initialOffset + number of prior appends) or, when the append
filled the segment and triggered a rollover, that offset plus one. Returned
offsets are therefore non-decreasing, but not strictly increasing, and do
not always step by exactly 1 within a segment: see the counterexample. -/
theorem C2_monotonic_amended (c : Config) (l : Log) (rs : List Record) (rets : List Nat)
    (h : LReach c l rs rets) (hb : c.initialOffset + rs.length < U64) :
    rets.length = rs.length ∧
    (∀ k, k < rs.length →
      rets.getD k 0 = c.initialOffset + k ∨ rets.getD k 0 = c.initialOffset + k + 1) ∧
    (∀ k, k + 1 < rs.length → rets.getD k 0 ≤ rets.getD (k + 1) 0) := by
  obtain ⟨-, hlen, hdis⟩ := lreach_inv h hb
  refine ⟨hlen, hdis, ?_⟩
  intro k hk
  rcases hdis k (by omega) with h1 | h1 <;> rcases hdis (k + 1) hk with h2 | h2 <;> omega

/-- Counterexample to C2 as stated: with two-entry segments, three appends
return offsets 0, 2, 2 — the second append (same segment as the first)
returns 2 rather than 1, and the third returns 2 again, so the sequence is
neither strictly increasing nor stepping by exactly 1 within a segment. -/
theorem C2_counterexample :
    ((Log.new [] ⟨0, 1024, 24⟩).bind (fun l0 =>
      (l0.appendAll [⟨[97], 0⟩, ⟨[98], 0⟩, ⟨[99], 0⟩]).map Prod.fst)) = some [0, 2, 2] ∧
    (2 : Nat) ≠ 0 + 1 ∧ ¬ (2 : Nat) < 2 := by
  refine ⟨by rfl, by decide, by decide⟩

theorem C2_monotonic_amended_witness :
    ([0, 1] : List Nat).length = ([⟨[97], 0⟩, ⟨[98], 0⟩] : List Record).length ∧
    (∀ k, k < ([⟨[97], 0⟩, ⟨[98], 0⟩] : List Record).length →
      List.getD [0, 1] k 0 = Config.initialOffset ⟨0, 1024, 48⟩ + k ∨
      List.getD [0, 1] k 0 = Config.initialOffset ⟨0, 1024, 48⟩ + k + 1) ∧
    (∀ k, k + 1 < ([⟨[97], 0⟩, ⟨[98], 0⟩] : List Record).length →
      List.getD [0, 1] k 0 ≤ List.getD [0, 1] (k + 1) 0) :=
  C2_monotonic_amended ⟨0, 1024, 48⟩
    ⟨[segmentOf ⟨0, 1024, 48⟩ 0 [[97], [98]]],
      segmentOf ⟨0, 1024, 48⟩ 0 [[97], [98]], ⟨0, 1024, 48⟩⟩
    [⟨[97], 0⟩, ⟨[98], 0⟩] [0, 1]
    (newAppendAll_lreach ⟨0, 1024, 48⟩ [⟨[97], 0⟩, ⟨[98], 0⟩]
      ⟨[segmentOf ⟨0, 1024, 48⟩ 0 []], segmentOf ⟨0, 1024, 48⟩ 0 [], ⟨0, 1024, 48⟩⟩
      ⟨[segmentOf ⟨0, 1024, 48⟩ 0 [[97], [98]]],
        segmentOf ⟨0, 1024, 48⟩ 0 [[97], [98]], ⟨0, 1024, 48⟩⟩
      [0, 1] (by decide) (by decide))
    (by decide)

/-- C3: the code diverges from the spec in the S5/S6 scenario. With
two-entry segments and four appends the log holds segments with offset
ranges [0,2), [2,4) and [4,4). Compact removes a segment only when its
nextOffset is STRICTLY BELOW the threshold (seg.NextOffset < lowest),
although its own comment says "at or below". Hence Compact(2) removes
nothing: LowestOffset() stays 0 and Read(1) still succeeds, contradicting
the spec. Only Compact(3) removes the first segment, after which
LowestOffset() = 2, Read(1) fails, and Read(2) returns its value. -/
theorem C3_compact_eval :
    ((Log.new [] ⟨0, 1024, 24⟩).bind (fun l0 =>
      (l0.appendAll [⟨[97], 0⟩, ⟨[98], 0⟩, ⟨[99], 0⟩, ⟨[100], 0⟩]).map (fun p =>
        ((p.2.compact 2).segments.length,
         (p.2.compact 2).lowestOffset,
         ((p.2.compact 2).read 1).isSome,
         (p.2.compact 3).lowestOffset,
         ((p.2.compact 3).read 1).isNone,
         ((p.2.compact 3).read 2).map Record.value)))) =
      some (3, 0, true, 2, true, some [99]) := by
  rfl

theorem store_new_bytes (ps : List (List Nat)) : Store.new (storeBytes ps) = storeOf ps := by
  unfold Store.new storeOf
  rw [length_storeBytes]

theorem goCmpLe_of_le {a b : Nat} (hab : a ≤ b) (hb : b < 2 ^ 63) : goCmpLe a b := by
  unfold goCmpLe toInt64 sub64
  simp only [U64]
  split <;> omega

/-- Reopening the closed files of a canonical segment restores it. -/
theorem segment_reopen {c : Config} {b : Nat} {vs : List (List Nat)}
    (hfit : recordWidth * vs.length ≤ c.maxIndexBytes)
    (h0 : c.maxIndexBytes ≠ 0) (h63 : c.maxIndexBytes < 2 ^ 63)
    (hb : b < U64) (hk : vs.length ≤ U32) :
    Segment.new (storeBytes (segRecs b vs)) (entriesBytes (segEntriesFrom 0 0 vs)) b c =
      some (segmentOf c b vs) := by
  unfold Segment.new
  rw [indexOf_reopen (by rw [length_segEntriesFrom]; exact hfit) h0 h63]
  dsimp only []
  by_cases hne : vs = []
  · subst hne
    have hread : (indexOf c.maxIndexBytes (segEntriesFrom 0 0 [])).read (-1) = none := by
      unfold Index.read
      rw [if_pos (show (indexOf c.maxIndexBytes (segEntriesFrom 0 0 [])).size = 0 from rfl)]
    rw [hread]
    rw [store_new_bytes]
    unfold segmentOf
    rw [show wrap64 (b + ([] : List (List Nat)).length) = b from by
      rw [List.length_nil, Nat.add_zero]; exact wrap64_eq_of_lt hb]
  · have hread := @segmentOf_index_read_last c b vs hne hk
    rw [show (indexOf c.maxIndexBytes (segEntriesFrom 0 0 vs)).read (-1) =
        some ((vs.length - 1) % U32, wrap64 (vlen (vs.take (vs.length - 1)))) from hread]
    rw [store_new_bytes]
    unfold segmentOf
    have hpos : 0 < vs.length := List.length_pos.mpr hne
    have hm : (vs.length - 1) % U32 = vs.length - 1 := Nat.mod_eq_of_lt (by omega)
    rw [hm]
    dsimp only []
    rw [show b + (vs.length - 1) + 1 = b + vs.length from by omega]

theorem openSegments_skip {f0 : SegFiles} {disk : List SegFiles} {c : Config} :
    ∀ bs : List Nat, (∀ b ∈ bs, f0.base ≠ b) →
      openSegments (f0 :: disk) c bs = openSegments disk c bs := by
  intro bs
  induction bs with
  | nil => intro _; rfl
  | cons b bs ih =>
    intro hall
    unfold openSegments
    have hfind : (f0 :: disk).find? (fun f => f.base == b) =
        disk.find? (fun f => f.base == b) := by
      apply List.find?_cons_of_neg
      simp only [beq_iff_eq, Bool.not_eq_true, decide_eq_false_iff_not]
      exact hall b (by simp)
    rw [show findFiles (f0 :: disk) b = findFiles disk b from by
      unfold findFiles; rw [hfind]]
    rw [ih (fun x hx => hall x (by simp [hx]))]

/-- The duplicated base-offset list of a contiguous bounded parts list is
sorted under the Go comparator. -/
theorem dupFlatten_pairwise :
    ∀ (parts : List (Nat × List (List Nat))) (b : Nat), contigFrom b parts →
      b + partsCount parts < 2 ^ 63 →
      List.Pairwise goCmpLe ((parts.map (fun p => [p.1, p.1])).flatten) := by
  intro parts
  induction parts with
  | nil =>
    intro b _ _
    simp
  | cons p rest ih =>
    intro b hc hbound
    obtain ⟨hp1, hrest⟩ := hc
    rw [partsCount_cons] at hbound
    have hmem : ∀ y ∈ (rest.map (fun q => [q.1, q.1])).flatten,
        b + p.2.length ≤ y ∧ y < 2 ^ 63 := by
      intro y hy
      simp only [List.mem_flatten, List.mem_map] at hy
      obtain ⟨ll, ⟨q, hq, hll⟩, hyl⟩ := hy
      rw [← hll] at hyl
      have hq2 := contigFrom_mem_le rest (b + p.2.length) hrest q hq
      rcases List.mem_cons.mp hyl with rfl | hyl2
      · omega
      · rcases List.mem_singleton.mp hyl2 with rfl
        omega
    show List.Pairwise goCmpLe (p.1 :: p.1 :: (rest.map (fun q => [q.1, q.1])).flatten)
    rw [List.pairwise_cons, List.pairwise_cons]
    refine ⟨?_, ?_, ih (b + p.2.length) hrest (by omega)⟩
    · intro y hy
      rcases List.mem_cons.mp hy with rfl | hy2
      · exact goCmpLe_of_le (le_refl _) (by omega)
      · have := hmem y hy2
        exact goCmpLe_of_le (by omega) (by omega)
    · intro y hy
      have := hmem y hy
      exact goCmpLe_of_le (by omega) (by omega)

/-- The step-by-two loop recovers one base per part from the duplicated
list. -/
theorem everyOther_dup :
    ∀ (parts : List (Nat × List (List Nat))),
      everyOther ((parts.map (fun p => [p.1, p.1])).flatten) = parts.map Prod.fst := by
  intro parts
  induction parts with
  | nil => rfl
  | cons p rest ih =>
    show everyOther (p.1 :: p.1 :: (rest.map (fun q => [q.1, q.1])).flatten) =
      p.1 :: rest.map Prod.fst
    rw [show everyOther (p.1 :: p.1 :: (rest.map (fun q => [q.1, q.1])).flatten) =
      p.1 :: everyOther ((rest.map (fun q => [q.1, q.1])).flatten) from rfl, ih]

/-- Opening the per-part files at the per-part bases yields the canonical
segments. -/
theorem openSegments_parts (c : Config) (h0 : c.maxIndexBytes ≠ 0)
    (h63 : c.maxIndexBytes < 2 ^ 63) :
    ∀ (parts : List (Nat × List (List Nat))) (b : Nat),
      contigFrom b parts →
      (∀ p ∈ parts, recordWidth * p.2.length ≤ c.maxIndexBytes) →
      (∀ p ∈ parts.dropLast, p.2 ≠ []) →
      b + partsCount parts < U64 →
      partsCount parts ≤ U32 →
      openSegments (parts.map partFiles) c (parts.map Prod.fst) =
        some (partsSegs c parts) := by
  intro parts
  induction parts with
  | nil =>
    intro b _ _ _ _ _
    rfl
  | cons p rest ih =>
    intro b hc hfits hmid hbound hk32
    obtain ⟨hp1, hrest⟩ := hc
    rw [partsCount_cons] at hbound hk32
    show openSegments (partFiles p :: rest.map partFiles) c (p.1 :: rest.map Prod.fst) =
      some (partsSegs c (p :: rest))
    unfold openSegments
    have hfind : (partFiles p :: rest.map partFiles).find? (fun f => f.base == p.1) =
        some (partFiles p) := by
      apply List.find?_cons_of_pos
      simp [partFiles]
    rw [show findFiles (partFiles p :: rest.map partFiles) p.1 =
        (storeBytes (segRecs p.1 p.2), entriesBytes (segEntriesFrom 0 0 p.2)) from by
      unfold findFiles; rw [hfind]; rfl]
    rw [segment_reopen (hfits p (by simp)) h0 h63 (by omega)
      (by omega : p.2.length ≤ U32)]
    dsimp only []
    by_cases hrn : rest = []
    · subst hrn
      rfl
    · have hskip : openSegments (partFiles p :: rest.map partFiles) c
          (rest.map Prod.fst) = openSegments (rest.map partFiles) c
          (rest.map Prod.fst) := by
        apply openSegments_skip
        intro bq hbq
        simp only [List.mem_map] at hbq
        obtain ⟨q, hq, hqb⟩ := hbq
        have hq2 := contigFrom_mem_le rest (b + p.2.length) hrest q hq
        have hpne : p.2 ≠ [] := by
          apply hmid p
          obtain ⟨q0, rest2, hr2⟩ := List.exists_cons_of_ne_nil hrn
          rw [hr2]
          show p ∈ p :: (q0 :: rest2).dropLast
          simp
        have hplen : 0 < p.2.length := List.length_pos.mpr hpne
        show p.1 ≠ bq
        omega
      rw [hskip, ih (b + p.2.length) hrest (fun q hq => hfits q (by simp [hq]))
        (fun q hq => hmid q (by
          obtain ⟨q0, rest2, hr2⟩ := List.exists_cons_of_ne_nil hrn
          rw [hr2] at hq ⊢
          show q ∈ p :: (q0 :: rest2).dropLast
          simp only [List.mem_cons]
          right
          exact hq))
        (by omega) (by omega)]
      rfl

/-- C5: closing a reachable log and constructing a new Log over the same
directory with the same config restores the log exactly, so HighestOffset
is preserved. setup lists both files of each segment, sorts the duplicated
base offsets with the int-comparator (safe below 2 ^ 63), walks every other
offset, and reopens each segment, whose index recovery reproduces each
NextOffset. -/
theorem C5_close_open (c : Config) (l : Log) (rs : List Record) (rets : List Nat)
    (h : LReach c l rs rets) (hb : c.initialOffset + rs.length < 2 ^ 63)
    (hn : rs.length ≤ U32) :
    ∃ l2, Log.new (Log.close l) c = some l2 ∧ l2.highestOffset = l.highestOffset := by
  have hbU : c.initialOffset + rs.length < U64 := by
    simp only [U64]
    omega
  obtain ⟨⟨ps, cur, hcfg, hsegs, hact, hcontig, hvals, hfits, hmid, hm0, hm63⟩, -, -⟩ :=
    lreach_inv h hbU
  have hcnt : partsCount (ps ++ [cur]) = rs.length := by
    have h2 := congrArg List.length hvals
    rw [length_partsVals, List.length_map] at h2
    exact h2
  refine ⟨l, ?_, rfl⟩
  have hclose : Log.close l = (ps ++ [cur]).map partFiles := by
    unfold Log.close
    rw [hsegs]
    unfold partsSegs
    rw [List.map_map]
    apply List.map_congr_left
    intro p hp
    have hic : (segmentOf (applyDefaults c) p.1 p.2).index.close =
        entriesBytes (segEntriesFrom 0 0 p.2) := by
      show (indexOf (applyDefaults c).maxIndexBytes (segEntriesFrom 0 0 p.2)).close = _
      apply indexOf_close
      rw [length_segEntriesFrom]
      exact hfits p hp
    show (⟨(segmentOf (applyDefaults c) p.1 p.2).baseOffset,
        (segmentOf (applyDefaults c) p.1 p.2).store.close,
        (segmentOf (applyDefaults c) p.1 p.2).index.close⟩ : SegFiles) = partFiles p
    rw [hic]
    rfl
  rw [hclose]
  unfold Log.new setup
  dsimp only []
  rw [List.map_map]
  rw [show ((fun f => [f.base, f.base]) ∘ partFiles) =
      (fun p : Nat × List (List Nat) => [p.1, p.1]) from rfl]
  have hmemcur : cur.1 ∈ ((ps ++ [cur]).map
      (fun p : Nat × List (List Nat) => [p.1, p.1])).flatten := by
    apply List.mem_flatten.mpr
    exact ⟨[cur.1, cur.1], List.mem_map.mpr ⟨cur, by simp, rfl⟩, by simp⟩
  have hne2 : (((ps ++ [cur]).map
      (fun p : Nat × List (List Nat) => [p.1, p.1])).flatten).isEmpty = false := by
    cases hx : ((ps ++ [cur]).map
        (fun p : Nat × List (List Nat) => [p.1, p.1])).flatten with
    | nil =>
      rw [hx] at hmemcur
      simp at hmemcur
    | cons a as => rfl
  rw [if_neg (by rw [hne2]; exact Bool.false_ne_true)]
  have hsorted : List.Pairwise goCmpLe (((ps ++ [cur]).map
      (fun p : Nat × List (List Nat) => [p.1, p.1])).flatten) :=
    dupFlatten_pairwise (ps ++ [cur]) c.initialOffset hcontig (by omega)
  rw [show goSort (((ps ++ [cur]).map
      (fun p : Nat × List (List Nat) => [p.1, p.1])).flatten) =
      (((ps ++ [cur]).map (fun p : Nat × List (List Nat) => [p.1, p.1])).flatten) from
    List.Sorted.insertionSort_eq hsorted]
  rw [everyOther_dup (ps ++ [cur])]
  rw [openSegments_parts (applyDefaults c) hm0 hm63 (ps ++ [cur]) c.initialOffset hcontig
    hfits (fun p hp => hmid p (by rwa [List.dropLast_concat] at hp))
    (by omega) (by omega)]
  dsimp only []
  rw [show (partsSegs (applyDefaults c) (ps ++ [cur])).getLast? =
      some (segmentOf (applyDefaults c) cur.1 cur.2) from by
    rw [partsSegs_concat]
    exact List.getLast?_concat _]
  show some (⟨partsSegs (applyDefaults c) (ps ++ [cur]),
      segmentOf (applyDefaults c) cur.1 cur.2, applyDefaults c⟩ : Log) = some l
  rw [← hsegs, ← hact, ← hcfg]

theorem C5_close_open_witness :
    ∃ l2, Log.new (Log.close ⟨[segmentOf ⟨0, 1024, 48⟩ 0 [[97], [98]]],
        segmentOf ⟨0, 1024, 48⟩ 0 [[97], [98]], ⟨0, 1024, 48⟩⟩) ⟨0, 1024, 48⟩ =
      some l2 ∧
      l2.highestOffset = Log.highestOffset ⟨[segmentOf ⟨0, 1024, 48⟩ 0 [[97], [98]]],
        segmentOf ⟨0, 1024, 48⟩ 0 [[97], [98]], ⟨0, 1024, 48⟩⟩ :=
  C5_close_open ⟨0, 1024, 48⟩
    ⟨[segmentOf ⟨0, 1024, 48⟩ 0 [[97], [98]]],
      segmentOf ⟨0, 1024, 48⟩ 0 [[97], [98]], ⟨0, 1024, 48⟩⟩
    [⟨[97], 0⟩, ⟨[98], 0⟩] [0, 1]
    (newAppendAll_lreach ⟨0, 1024, 48⟩ [⟨[97], 0⟩, ⟨[98], 0⟩]
      ⟨[segmentOf ⟨0, 1024, 48⟩ 0 []], segmentOf ⟨0, 1024, 48⟩ 0 [], ⟨0, 1024, 48⟩⟩
      ⟨[segmentOf ⟨0, 1024, 48⟩ 0 [[97], [98]]],
        segmentOf ⟨0, 1024, 48⟩ 0 [[97], [98]], ⟨0, 1024, 48⟩⟩
      [0, 1] (by decide) (by decide))
    (by decide) (by decide)
